import Mathlib

/-!
Shallow embedding of the version manager (`version_manager.py`) and of the
markdown/workflow validators (`tests/test_framework.py`) of the commands
repository, together with proofs of the specification claims.

Strings are modelled by Lean `String` / `List Char`.  Python's `re` patterns
`^(\d+)\.(\d+)\.(\d+)$` and `version:\s*[\d.]+` are modelled character by
character on `List Char` (with `\d` as the ASCII digits and `\s` as the six
ASCII whitespace characters, and `$` as end of string).  File-system state
(the metadata store, the files under `workflows/` and `tools/`, and
`CHANGELOG.md`) is modelled by the record `VMState`; raising an exception is
modelled by returning `Except.error` together with the state as it stands at
the raise point, mirroring the statement order of the Python code.
-/

/-- Ascii decimal digit characters, as used by Python `\d` (ASCII model). -/
def isDigitCh (c : Char) : Bool := decide ('0' ≤ c) && decide (c ≤ '9')

/-- The character class `[\d.]` of the substitution pattern `version:\s*[\d.]+`. -/
def isDigDot (c : Char) : Bool := isDigitCh c || c = '.'

/-- Python `\s` (ASCII model): space, tab, newline, carriage return, vertical tab, form feed. -/
def isWs (c : Char) : Bool :=
  c = ' ' || c = '\t' || c = '\n' || c = '\r' || c = '\x0b' || c = '\x0c'

/-- `isPre pat cs` : `pat` is a prefix of `cs` (Python `str.startswith`). -/
def isPre : List Char → List Char → Bool
  | [], _ => true
  | _ :: _, [] => false
  | a :: as, b :: bs => a = b && isPre as bs

/-- Python's substring containment `pat in cs`. -/
def containsSub (pat : List Char) : List Char → Bool
  | [] => isPre pat []
  | c :: cs => isPre pat (c :: cs) || containsSub pat cs

/-- Python `cs.find(pat)` restricted to found/not-found: index of the first
occurrence of `pat` in `cs`. -/
def findSub (pat : List Char) : List Char → Option Nat
  | [] => if isPre pat [] then some 0 else none
  | c :: cs =>
    if isPre pat (c :: cs) then some 0
    else
      match findSub pat cs with
      | some i => some (i + 1)
      | none => none

/-- Python `str.split(sep)` for a one-character separator: no collapsing of
adjacent separators, `"" ↦ [""]`. -/
def splitOnChar (sep : Char) : List Char → List (List Char)
  | [] => [[]]
  | c :: cs =>
    match splitOnChar sep cs with
    | [] => [[]]
    | g :: gs => if c = sep then [] :: g :: gs else (c :: g) :: gs

/-- Python `sep.join` for a one-character separator. -/
def joinSep (sep : Char) : List (List Char) → List Char
  | [] => []
  | [l] => l
  | l :: ls => l ++ sep :: joinSep sep ls

/-- `'\n'.join`, the inverse of `splitOnChar '\n'`. -/
def joinNL : List (List Char) → List Char := joinSep '\n'

/-- Python `str.rstrip()` (ASCII whitespace model). -/
def rstrip (cs : List Char) : List Char := (cs.reverse.dropWhile isWs).reverse

/-- Python `str.lower()` (ASCII case folding model). -/
def lowerStr (cs : List Char) : List Char := cs.map Char.toLower

/-- The decimal digit characters, used to render numbers the way Python
`str(int)` and an f-string do. -/
def decDigit : Nat → Char
  | 0 => '0'
  | 1 => '1'
  | 2 => '2'
  | 3 => '3'
  | 4 => '4'
  | 5 => '5'
  | 6 => '6'
  | 7 => '7'
  | 8 => '8'
  | _ => '9'

/-- Fuel-driven decimal rendering accumulator (the standard
most-significant-first digit loop; fuel `n+1` always suffices for `n`). -/
def toDecAux : Nat → Nat → List Char → List Char
  | 0, _, acc => acc
  | fuel + 1, n, acc =>
    let d := decDigit (n % 10)
    if n / 10 = 0 then d :: acc else toDecAux fuel (n / 10) (d :: acc)

/-- Decimal rendering of a natural number, as Python `str(int)`. -/
def natChars (n : Nat) : List Char := toDecAux (n + 1) n []

/-- Numeric value of a digit character. -/
def digitVal (c : Char) : Nat := c.toNat - 48

/-- Value of a digit string, most significant digit first (Python `int(s)`). -/
def digitsToNat (cs : List Char) : Nat := cs.foldl (fun n c => n * 10 + digitVal c) 0

/-- One `(\d+)` group of the version pattern: a non-empty all-digit string. -/
def parsePart (cs : List Char) : Option Nat :=
  if cs.isEmpty then none
  else if cs.all isDigitCh then some (digitsToNat cs) else none

/-- `VersionManager._parse_version`: full match of `^(\d+)\.(\d+)\.(\d+)$`,
returning the `(major, minor, patch)` triple, `none` modelling the raised
`ValueError`. -/
def parse_version (s : String) : Option (Nat × Nat × Nat) :=
  match splitOnChar '.' s.data with
  | [a, b, c] =>
    match parsePart a, parsePart b, parsePart c with
    | some x, some y, some z => some (x, y, z)
    | _, _, _ => none
  | _ => none

/-- Rendering of a `(major, minor, patch)` triple as `f"{major}.{minor}.{patch}"`. -/
def renderVersion : Nat × Nat × Nat → String
  | (a, b, c) => String.mk (natChars a ++ '.' :: natChars b ++ '.' :: natChars c)

/-- The `ChangeType` enum of `version_manager.py`. -/
inductive ChangeType
  | major
  | minor
  | patch
deriving DecidableEq

/-- `VersionManager._increment_version`; `none` models the `ValueError`
propagated from `_parse_version`. -/
def increment_version (version : String) (change_type : ChangeType) : Option String :=
  match parse_version version with
  | none => none
  | some (major, minor, patch) =>
    match change_type with
    | ChangeType.major => some (renderVersion (major + 1, 0, 0))
    | ChangeType.minor => some (renderVersion (major, minor + 1, 0))
    | ChangeType.patch => some (renderVersion (major, minor, patch + 1))

/-- Python tuple comparison `current >= required` on version triples:
lexicographic greater-or-equal. -/
def lexGe : Nat × Nat × Nat → Nat × Nat × Nat → Bool
  | (a1, b1, c1), (a2, b2, c2) =>
    decide (a2 < a1) || (decide (a1 = a2) &&
      (decide (b2 < b1) || (decide (b1 = b2) && decide (c2 ≤ c1))))

/-- Component-wise (pointwise) greater-or-equal on version triples, the
relation named by claim C1. -/
def componentwiseGe : Nat × Nat × Nat → Nat × Nat × Nat → Bool
  | (a1, b1, c1), (a2, b2, c2) =>
    decide (a2 ≤ a1) && decide (b2 ≤ b1) && decide (c2 ≤ c1)

/-- Version order used to state monotonicity: both strings parse and the
second triple is lexicographically at least the first. -/
def versionLe (v w : String) : Prop :=
  ∃ t u, parse_version v = some t ∧ parse_version w = some u ∧ lexGe u t = true

/-- The dataclass `CommandVersion` of `version_manager.py` (with the
`__post_init__` `None → []` defaulting already applied). -/
structure CommandVersion where
  version : String
  released : String
  changes : List String
  breaking_changes : List String
  deprecated_features : List String
deriving DecidableEq

/-- The dataclass `CommandMetadata` of `version_manager.py`. -/
structure CommandMetadata where
  name : String
  type : String
  description : String
  current_version : String
  created : String
  last_updated : String
  tags : List String
  dependencies : List String
  version_history : List CommandVersion
deriving DecidableEq

/-- Python-dict lookup in an insertion-ordered association list. -/
def lookupName {α : Type} : List (String × α) → String → Option α
  | [], _ => none
  | (k, v) :: rest, key => if k = key then some v else lookupName rest key

/-- Python-dict assignment `d[key] = v`: replace in place or append. -/
def insertName {α : Type} : List (String × α) → String → α → List (String × α)
  | [], key, v => [(key, v)]
  | (k, w) :: rest, key, v =>
    if k = key then (key, v) :: rest else (k, w) :: insertName rest key v

/-- The persistent state a `VersionManager` instance operates on: the
metadata store (`.command-metadata.json`), the markdown files under the
`workflows/` and `tools/` directories (keyed by filename stem), and the
optional `CHANGELOG.md`. -/
structure VMState where
  metadata : List (String × CommandMetadata)
  workflowFiles : List (String × String)
  toolFiles : List (String × String)
  changelog : Option String
deriving DecidableEq

/-- `VersionManager._find_command_file`: `workflows/<name>.md` first, then
`tools/<name>.md`; the Bool records which directory the file was found in. -/
def find_command_file (st : VMState) (command_name : String) : Option (Bool × String) :=
  match lookupName st.workflowFiles command_name with
  | some c => some (true, c)
  | none =>
    match lookupName st.toolFiles command_name with
    | some c => some (false, c)
    | none => none

/-- The literal `version:` searched for by `_update_command_file`. -/
def verKey : List Char := "version:".data

/-- One leftmost-match attempt of the pattern `version:\s*[\d.]+` at the head
of the string: on success returns the captured `[\d.]+` run and the
remainder after the match.  The classes `\s` and `[\d.]` are disjoint, so
maximal munch is exact for this pattern. -/
def matchVer (cs : List Char) : Option (List Char × List Char) :=
  if isPre verKey cs then
    if (((cs.drop 8).dropWhile isWs).takeWhile isDigDot).isEmpty then none
    else some (((cs.drop 8).dropWhile isWs).takeWhile isDigDot,
      ((cs.drop 8).dropWhile isWs).dropWhile isDigDot)
  else none

/-- Value captured by the first match of `version:\s*([\d.]+)`, the read-back
of the version marker embedded by the rewrite algorithm. -/
def findVer : List Char → Option (List Char)
  | [] => none
  | c :: cs =>
    match matchVer (c :: cs) with
    | some (g, _) => some g
    | none => findVer cs

/-- Split at the first match of `version:\s*[\d.]+`: returns the text before
the match and the remainder after it (`re.sub`'s leftmost-first scan). -/
def firstMatchSplit : List Char → Option (List Char × List Char)
  | [] => none
  | c :: cs =>
    match matchVer (c :: cs) with
    | some (_, rest) => some ([], rest)
    | none =>
      match firstMatchSplit cs with
      | some (p, r) => some (c :: p, r)
      | none => none

/-- The replacement text `f'version: {version}'` of the `re.sub` call. -/
def vRepl (v : String) : List Char := "version: ".data ++ v.data

/-- Fuel-driven scan of `re.sub(r'version:\s*[\d.]+', f'version: {v}', cs)`:
replace every non-overlapping leftmost match.  Fuel `cs.length` suffices
because every step consumes at least one character. -/
def subVersionAux (v : String) : Nat → List Char → List Char
  | _, [] => []
  | 0, cs => cs
  | fuel + 1, c :: cs =>
    match matchVer (c :: cs) with
    | some (_, rest) => vRepl v ++ subVersionAux v fuel rest
    | none => c :: subVersionAux v fuel cs

/-- `re.sub(r'version:\s*[\d.]+', f'version: {v}', ·)` on a char list. -/
def subVersion (v : String) (cs : List Char) : List Char := subVersionAux v cs.length cs

/-- `VersionManager._update_command_file` as a content transformation (the
read/write of the file itself is handled by the callers on `VMState`). -/
def update_command_file (content : String) (version : String) : String :=
  let cs := content.data
  let header : List Char := "---\nversion: ".data ++ version.data ++ "\n---\n".data
  if isPre "---".data cs then
    match findSub "---".data (cs.drop 3) with
    | some e =>
      let fm := (cs.drop 3).take e
      let fm2 :=
        if containsSub verKey fm then subVersion version fm
        else rstrip fm ++ "\nversion: ".data ++ version.data ++ ['\n']
      String.mk ("---".data ++ fm2 ++ "---".data ++ (cs.drop 3).drop (e + 3))
    | none => String.mk (header ++ cs)
  else String.mk (header ++ cs)

/-- Read back the version embedded in a command file: the first
`version:\s*([\d.]+)` group inside the file's frontmatter block. -/
def extractVersion (content : String) : Option String :=
  let cs := content.data
  if isPre "---".data cs then
    match findSub "---".data (cs.drop 3) with
    | some e =>
      match findVer ((cs.drop 3).take e) with
      | some g => some (String.mk g)
      | none => none
    | none => none
  else none

/-- The frontmatter block `content[3:content.find('---', 3)]`, when present. -/
def frontmatterOf (content : String) : Option (List Char) :=
  if isPre "---".data content.data then
    match findSub "---".data (content.data.drop 3) with
    | some e => some ((content.data.drop 3).take e)
    | none => none
  else none

/-- Bullet list `- <item>\n` per item, as built by `_update_changelog`. -/
def bulletLines (items : List String) : List Char :=
  (items.map (fun s => '-' :: ' ' :: s.data ++ ['\n'])).flatten

/-- The changelog entry string built by `_update_changelog` (date is
`datetime.now().strftime('%Y-%m-%d')`, passed in as a parameter). -/
def changelogEntry (command_name new_version date : String) (entry : CommandVersion) : List Char :=
  ('\n' :: "## [".data ++ command_name.data ++ "] ".data ++ new_version.data
      ++ " - ".data ++ date.data ++ ['\n'])
  ++ (if entry.breaking_changes.isEmpty then []
      else '\n' :: "### Breaking Changes".data ++ '\n' :: bulletLines entry.breaking_changes)
  ++ (if entry.changes.isEmpty then []
      else '\n' :: "### Changes".data ++ '\n' :: bulletLines entry.changes)
  ++ (if entry.deprecated_features.isEmpty then []
      else '\n' :: "### Deprecated".data ++ '\n' :: bulletLines entry.deprecated_features)

/-- First index whose line starts with `'# '` (the enumerate loop of
`_update_changelog`). -/
def firstHeaderIdx : Nat → List (List Char) → Option Nat
  | _, [] => none
  | i, l :: ls => if isPre "# ".data l then some i else firstHeaderIdx (i + 1) ls

/-- `insert_index` of `_update_changelog`: one past the first top-level
header line, `0` when there is none. -/
def insertIndex (lines : List (List Char)) : Nat :=
  match firstHeaderIdx 0 lines with
  | some i => i + 1
  | none => 0

/-- `VersionManager._update_changelog` as a content transformation on the
optional current changelog content. -/
def update_changelog (changelog : Option String) (command_name new_version date : String)
    (entry : CommandVersion) : String :=
  let e := changelogEntry command_name new_version date entry
  match changelog with
  | some content =>
    let lines := splitOnChar '\n' content.data
    let idx := insertIndex lines
    String.mk (joinNL (lines.take idx ++ e :: lines.drop idx))
  | none => String.mk ("# Claude Code Commands Changelog\n".data ++ e)

/-- `VersionManager.check_compatibility`; `Except.error` models the
`ValueError` raised by `_parse_version` on a malformed stored or required
version. -/
def check_compatibility (st : VMState) (command_name required_version : String) :
    Except String Bool :=
  match lookupName st.metadata command_name with
  | none => Except.ok false
  | some md =>
    match parse_version md.current_version with
    | none => Except.error ("Invalid version format: " ++ md.current_version)
    | some current =>
      match parse_version required_version with
      | none => Except.error ("Invalid version format: " ++ required_version)
      | some required => Except.ok (lexGe current required)

/-- `VersionManager.initialize_command`.  The command path is abstracted to
the flag `is_workflow` (`"workflows" in str(command_path)`) plus the filename
stem `command_name`; the file written by `_update_command_file` is the one
recorded for that stem in the corresponding directory map, and a missing
file makes `read_text` raise (after the store was already written, as in the
Python statement order). -/
def initialize_command (st : VMState) (is_workflow : Bool) (command_name : String)
    (description : String) (tags dependencies : List String) (now : String) :
    VMState × Except String Unit :=
  match lookupName st.metadata command_name with
  | some _ => (st, Except.ok ())
  | none =>
    let md : CommandMetadata :=
      ⟨command_name, (if is_workflow then "workflow" else "tool"), description, "1.0.0",
        now, now, tags, dependencies, [⟨"1.0.0", now, ["Initial release"], [], []⟩]⟩
    let st1 := { st with metadata := insertName st.metadata command_name md }
    match (if is_workflow then lookupName st1.workflowFiles command_name
           else lookupName st1.toolFiles command_name) with
    | none => (st1, Except.error "command file not found")
    | some c =>
      let nc := update_command_file c "1.0.0"
      if is_workflow then
        ({ st1 with workflowFiles := insertName st1.workflowFiles command_name nc }, Except.ok ())
      else
        ({ st1 with toolFiles := insertName st1.toolFiles command_name nc }, Except.ok ())

/-- `VersionManager.update_version`, with the two timestamps passed in
(`now = datetime.now().isoformat()`, `date = strftime('%Y-%m-%d')`).  The
returned state is the state at normal return or at the raise point. -/
def update_version (st : VMState) (command_name : String) (change_type : ChangeType)
    (changes breaking_changes deprecated_features : List String) (now date : String) :
    VMState × Except String Unit :=
  match lookupName st.metadata command_name with
  | none => (st, Except.error ("Command " ++ command_name ++ " not found in metadata"))
  | some md =>
    match increment_version md.current_version change_type with
    | none => (st, Except.error ("Invalid version format: " ++ md.current_version))
    | some new_version =>
      let entry : CommandVersion :=
        ⟨new_version, now, changes, breaking_changes, deprecated_features⟩
      let md2 :=
        { md with
          current_version := new_version
          last_updated := now
          version_history := md.version_history ++ [entry] }
      let st1 := { st with metadata := insertName st.metadata command_name md2 }
      let st2 :=
        match find_command_file st1 command_name with
        | some (true, c) =>
          { st1 with
            workflowFiles :=
              insertName st1.workflowFiles command_name (update_command_file c new_version) }
        | some (false, c) =>
          { st1 with
            toolFiles :=
              insertName st1.toolFiles command_name (update_command_file c new_version) }
        | none => st1
      let st3 :=
        { st2 with
          changelog := some (update_changelog st2.changelog command_name new_version date entry) }
      (st3, Except.ok ())

/-- One `update_version` request (change kind, change lists, timestamps). -/
structure UpdateReq where
  change_type : ChangeType
  changes : List String
  breaking_changes : List String
  deprecated_features : List String
  now : String
  date : String

/-- A sequence of `update_version` calls on one command, `none` as soon as
one of them raises. -/
def runUpdates (name : String) : VMState → List UpdateReq → Option VMState
  | st, [] => some st
  | st, r :: rs =>
    match update_version st name r.change_type r.changes r.breaking_changes
        r.deprecated_features r.now r.date with
    | (st2, Except.ok _) => runUpdates name st2 rs
    | (_, Except.error _) => none

/-- Severity levels of `test_framework.py`. -/
inductive ValidationLevel
  | error
  | warning
  | info
deriving DecidableEq

/-- A finding, as the dataclass `ValidationResult` (the `command_file` path
echo, constant over one validation, is omitted). -/
structure ValidationResult where
  level : ValidationLevel
  message : String
  line_number : Option Nat
deriving DecidableEq

/-- Python `content.count('```')`: non-overlapping occurrences, scanning from
the left (a backtick is the character of code 96). -/
def countTripleBacktick : List Char → Nat
  | c1 :: c2 :: c3 :: rest =>
    if c1.toNat = 96 && c2.toNat = 96 && c3.toNat = 96 then
      countTripleBacktick rest + 1
    else
      countTripleBacktick (c2 :: c3 :: rest)
  | _ => 0

/-- The error finding emitted for an odd fence count. -/
def unclosedCodeBlockError : ValidationResult :=
  ⟨ValidationLevel.error, "Unclosed code block detected", none⟩

/-- Leading `'#'` count of a line, `len(line) - len(line.lstrip('#'))`. -/
def headerLevel (l : List Char) : Nat := (l.takeWhile (· = '#')).length

/-- `(level, 1-based line number)` of every line starting with `'#'`. -/
def collectHeaders : Nat → List (List Char) → List (Nat × Nat)
  | _, [] => []
  | i, l :: ls =>
    if isPre ['#'] l then (headerLevel l, i + 1) :: collectHeaders (i + 1) ls
    else collectHeaders (i + 1) ls

/-- The header-hierarchy warnings over consecutive header pairs. -/
def headerWarnsAux : List (Nat × Nat) → List ValidationResult
  | (pl, _) :: (cl, cline) :: rest =>
    (if pl + 1 < cl then
       [⟨ValidationLevel.warning,
         "Header level jumps from " ++ toString pl ++ " to " ++ toString cl, some cline⟩]
     else []) ++ headerWarnsAux ((cl, cline) :: rest)
  | _ => []

/-- `CommandValidator._validate_markdown` (lines are modelled by splitting on
`'\n'`; `splitlines` differences affect only line numbering of the header
warnings, not the code-block check on the raw content). -/
def validate_markdown (content : String) : List ValidationResult :=
  (if countTripleBacktick content.data % 2 ≠ 0 then [unclosedCodeBlockError] else [])
  ++ headerWarnsAux (collectHeaders 0 (splitOnChar '\n' content.data))

/-- The task-delegation warning of `WorkflowValidator._validate_task_tool_usage`. -/
def taskToolWarning : ValidationResult :=
  ⟨ValidationLevel.warning, "Workflow should use Task tool for subagent coordination", none⟩

/-- The `subagent_type` warning of the same method. -/
def subagentTypeWarning : ValidationResult :=
  ⟨ValidationLevel.warning, "Workflow using Task tool should specify subagent_type", none⟩

/-- `WorkflowValidator._validate_task_tool_usage`. -/
def validate_task_tool_usage (content : String) : List ValidationResult :=
  (if !containsSub "Task tool".data content.data
      && !containsSub "subagent".data (lowerStr content.data) then
     [taskToolWarning]
   else [])
  ++ (if !containsSub "subagent_type".data content.data
        && containsSub "Task tool".data content.data then
       [subagentTypeWarning]
     else [])

/-- Claim C9's reading of "mentions task-delegation mechanics": the document
contains both the literal phrase and (case-insensitively) "subagent". -/
def mentionsDelegation (content : String) : Prop :=
  containsSub "Task tool".data content.data = true
    ∧ containsSub "subagent".data (lowerStr content.data) = true

/-- Precondition of the amended claim C6: whenever the file has a frontmatter
block whose body contains the substring `version:`, at least one occurrence
actually matches `version:\s*[\d.]+` (so that `re.sub` has something to
replace). -/
def rewritePre (content : String) : Prop :=
  ∀ fm, frontmatterOf content = some fm →
    containsSub verKey fm = true → (firstMatchSplit fm).isSome = true

/-- No occurrence of `---` anywhere in the list (the property that makes
`content.find('---', 3)` land exactly on the frontmatter closer). -/
def noTripleDash (A : List Char) : Prop := ∀ j, isPre "---".data (A.drop j) = false

/-- The last character, if any, is not a dash (so a following `---` closer
cannot merge with the frontmatter body into an earlier occurrence). -/
def lastNotDash (A : List Char) : Prop := ∀ c, A.getLast? = some c → c ≠ '-'

/-! ### Concrete fixtures used by counterexamples and witnesses -/

/-- The empty repository state. -/
def stEmpty : VMState := ⟨[], [], [], none⟩

/-- A registered command at current version `2.0.0`. -/
def mdAlpha : CommandMetadata :=
  ⟨"alpha", "tool", "", "2.0.0", "t0", "t0", [], [],
    [⟨"2.0.0", "t0", ["Initial release"], [], []⟩]⟩

/-- State holding only `alpha`. -/
def stAlpha : VMState := ⟨[("alpha", mdAlpha)], [], [], none⟩

/-- A registered command whose stored current version is malformed. -/
def mdBad : CommandMetadata := ⟨"bad", "tool", "", "oops", "t0", "t0", [], [], []⟩

/-- State holding only `bad`. -/
def stBad : VMState := ⟨[("bad", mdBad)], [], [], none⟩

/-- A freshly initialized command, as `initialize_command` creates it. -/
def mdCmd : CommandMetadata :=
  ⟨"cmd", "workflow", "", "1.0.0", "t", "t", [], [],
    [⟨"1.0.0", "t", ["Initial release"], [], []⟩]⟩

/-- State holding only `cmd`. -/
def stCmd : VMState := ⟨[("cmd", mdCmd)], [], [], none⟩

/-- A registered command at `1.0.0` with no command file on disk. -/
def mdSolo : CommandMetadata :=
  ⟨"solo", "tool", "", "1.0.0", "t0", "t0", [], [],
    [⟨"1.0.0", "t0", ["Initial release"], [], []⟩]⟩

/-- State holding only `solo`, with no files and no changelog. -/
def stSolo : VMState := ⟨[("solo", mdSolo)], [], [], none⟩

/-- The line sequence of a changelog entry: blank separator, `## [name]
version - date` header, then the optional subsections in the fixed order
Breaking Changes / Changes / Deprecated (empty ones omitted), a trailing
blank line.  This is what `changelogEntry` splits into at newlines. -/
def entryLines (cname nv date : String) (entry : CommandVersion) : List (List Char) :=
  [[], "## [".data ++ cname.data ++ "] ".data ++ nv.data ++ " - ".data ++ date.data]
  ++ (if entry.breaking_changes.isEmpty then [] else
      [[], "### Breaking Changes".data]
        ++ entry.breaking_changes.map (fun s => '-' :: ' ' :: s.data))
  ++ (if entry.changes.isEmpty then [] else
      [[], "### Changes".data] ++ entry.changes.map (fun s => '-' :: ' ' :: s.data))
  ++ (if entry.deprecated_features.isEmpty then [] else
      [[], "### Deprecated".data]
        ++ entry.deprecated_features.map (fun s => '-' :: ' ' :: s.data))
  ++ [[]]

/-! ### Basic lemmas about the string utilities -/

theorem isPre_iff (pat cs : List Char) : isPre pat cs = true ↔ ∃ t, cs = pat ++ t := by
  induction pat generalizing cs with
  | nil => simp [isPre]
  | cons a as ih =>
    cases cs with
    | nil => simp [isPre]
    | cons b bs =>
      simp only [isPre, Bool.and_eq_true, decide_eq_true_eq, ih]
      constructor
      · rintro ⟨rfl, t, rfl⟩; exact ⟨t, rfl⟩
      · rintro ⟨t, ht⟩
        cases ht
        exact ⟨rfl, t, rfl⟩

theorem isPre_append (pat A B : List Char) (h : isPre pat A = true) :
    isPre pat (A ++ B) = true := by
  rw [isPre_iff] at h ⊢
  obtain ⟨t, rfl⟩ := h
  exact ⟨t ++ B, by simp⟩

theorem isPre_length_le (pat cs : List Char) (h : isPre pat cs = true) :
    pat.length ≤ cs.length := by
  rw [isPre_iff] at h
  obtain ⟨t, rfl⟩ := h
  simp

theorem isPre_take (pat cs : List Char) (h : isPre pat cs = true) :
    cs.take pat.length = pat := by
  rw [isPre_iff] at h
  obtain ⟨t, rfl⟩ := h
  simp

theorem isPre_of_take (pat cs : List Char) (h : cs.take pat.length = pat) :
    isPre pat cs = true := by
  rw [isPre_iff]
  refine ⟨cs.drop pat.length, ?_⟩
  conv_lhs => rw [← List.take_append_drop pat.length cs]
  rw [h]

theorem containsSub_iff (pat cs : List Char) :
    containsSub pat cs = true ↔ ∃ j, isPre pat (cs.drop j) = true := by
  induction cs with
  | nil =>
    simp only [containsSub]
    constructor
    · intro h; exact ⟨0, h⟩
    · rintro ⟨j, hj⟩; simpa using hj
  | cons c cs ih =>
    simp only [containsSub, Bool.or_eq_true, ih]
    constructor
    · rintro (h | ⟨j, hj⟩)
      · exact ⟨0, h⟩
      · exact ⟨j + 1, hj⟩
    · rintro ⟨j, hj⟩
      cases j with
      | zero => exact Or.inl hj
      | succ j => exact Or.inr ⟨j, hj⟩

theorem splitOnChar_ne_nil (sep : Char) (cs : List Char) : splitOnChar sep cs ≠ [] := by
  cases cs with
  | nil => simp [splitOnChar]
  | cons c cs =>
    simp only [splitOnChar]
    cases h : splitOnChar sep cs with
    | nil => simp
    | cons g gs =>
      by_cases hc : c = sep <;> simp [hc]

theorem splitOnChar_cons (sep c : Char) (cs : List Char) :
    splitOnChar sep (c :: cs) =
      if c = sep then [] :: splitOnChar sep cs
      else (c :: (splitOnChar sep cs).headI) :: (splitOnChar sep cs).tail := by
  simp only [splitOnChar]
  cases h : splitOnChar sep cs with
  | nil => exact absurd h (splitOnChar_ne_nil sep cs)
  | cons g gs =>
    by_cases hc : c = sep <;> simp [hc, List.headI]

theorem splitOnChar_append_sep (sep : Char) (A B : List Char) :
    splitOnChar sep (A ++ sep :: B) = splitOnChar sep A ++ splitOnChar sep B := by
  induction A with
  | nil =>
    simp only [List.nil_append, splitOnChar_cons, if_pos rfl]
    rfl
  | cons a A ih =>
    by_cases ha : a = sep
    · subst ha
      simp [splitOnChar_cons, ih]
    · simp only [List.cons_append, splitOnChar_cons, if_neg ha, ih]
      cases h : splitOnChar sep A with
      | nil => exact absurd h (splitOnChar_ne_nil sep A)
      | cons g gs => simp [List.headI]

theorem splitOnChar_no_sep (sep : Char) (A : List Char) (h : ∀ c ∈ A, c ≠ sep) :
    splitOnChar sep A = [A] := by
  induction A with
  | nil => rfl
  | cons a A ih =>
    have ha : a ≠ sep := h a (by simp)
    rw [splitOnChar_cons, if_neg ha, ih (fun c hc => h c (by simp [hc]))]
    simp [List.headI]

theorem mem_splitOnChar_not_sep (sep : Char) (cs g : List Char)
    (hg : g ∈ splitOnChar sep cs) (c : Char) (hc : c ∈ g) : c ≠ sep := by
  induction cs generalizing g with
  | nil =>
    simp only [splitOnChar, List.mem_singleton] at hg
    subst hg
    simp at hc
  | cons b bs ih =>
    rw [splitOnChar_cons] at hg
    by_cases hb : b = sep
    · rw [if_pos hb] at hg
      rcases List.mem_cons.1 hg with rfl | hg
      · simp at hc
      · exact ih g hg hc
    · rw [if_neg hb] at hg
      rcases List.mem_cons.1 hg with rfl | hg
      · rcases List.mem_cons.1 hc with rfl | hc
        · exact hb
        · refine ih (splitOnChar sep bs).headI ?_ hc
          cases h : splitOnChar sep bs with
          | nil => exact absurd h (splitOnChar_ne_nil sep bs)
          | cons g' gs' => simp [List.headI]
      · refine ih g ?_ hc
        cases h : splitOnChar sep bs with
        | nil => exact absurd h (splitOnChar_ne_nil sep bs)
        | cons g' gs' =>
          rw [h] at hg
          exact List.mem_cons_of_mem g' (by simpa using hg)

/-- `sep`-joining, the inverse of `splitOnChar`. -/
theorem joinSep_splitOnChar (sep : Char) (cs : List Char) :
    joinSep sep (splitOnChar sep cs) = cs := by
  induction cs with
  | nil => rfl
  | cons c cs ih =>
    rw [splitOnChar_cons]
    by_cases hc : c = sep
    · rw [if_pos hc]
      cases h : splitOnChar sep cs with
      | nil => exact absurd h (splitOnChar_ne_nil sep cs)
      | cons g gs =>
        rw [h] at ih
        rw [hc]
        simpa [joinSep] using ih
    · rw [if_neg hc]
      cases h : splitOnChar sep cs with
      | nil => exact absurd h (splitOnChar_ne_nil sep cs)
      | cons g gs =>
        rw [h] at ih
        cases gs with
        | nil => simpa [joinSep, List.headI] using ih
        | cons g' gs' => simpa [joinSep, List.headI] using ih

/-! ### Decimal rendering round-trip -/

theorem decDigit_isDigit (d : Nat) (hd : d < 10) : isDigitCh (decDigit d) = true := by
  interval_cases d <;> decide

theorem digitVal_decDigit (d : Nat) (hd : d < 10) : digitVal (decDigit d) = d := by
  interval_cases d <;> decide

theorem toDecAux_all (P : Char → Bool) (hP : ∀ d, d < 10 → P (decDigit d) = true) :
    ∀ fuel n acc, acc.all P = true → (toDecAux fuel n acc).all P = true := by
  intro fuel
  induction fuel with
  | zero => intro n acc h; simpa [toDecAux] using h
  | succ f ih =>
    intro n acc h
    have hd : P (decDigit (n % 10)) = true := hP (n % 10) (Nat.mod_lt _ (by norm_num))
    simp only [toDecAux]
    by_cases h10 : n / 10 = 0
    · rw [if_pos h10]
      simp [hd, h]
    · rw [if_neg h10]
      exact ih (n / 10) _ (by simp [hd, h])

theorem toDecAux_length :
    ∀ fuel n acc, 0 < fuel → acc.length < (toDecAux fuel n acc).length := by
  intro fuel
  induction fuel with
  | zero => intro n acc h; exact absurd h (by omega)
  | succ f ih =>
    intro n acc _
    simp only [toDecAux]
    by_cases h10 : n / 10 = 0
    · rw [if_pos h10]; simp
    · rw [if_neg h10]
      cases f with
      | zero => simp [toDecAux]
      | succ f' =>
        have h1 := ih (n / 10) (decDigit (n % 10) :: acc) (Nat.succ_pos f')
        exact Nat.lt_trans (by simp) h1

theorem toDecAux_foldl :
    ∀ fuel n, n < fuel → ∃ p, n < p ∧ ∀ acc k,
      (toDecAux fuel n acc).foldl (fun m c => m * 10 + digitVal c) k
        = acc.foldl (fun m c => m * 10 + digitVal c) (k * p + n) := by
  intro fuel
  induction fuel with
  | zero => intro n h; exact absurd h (by omega)
  | succ f ih =>
    intro n hn
    by_cases h10 : n / 10 = 0
    · refine ⟨10, by omega, ?_⟩
      intro acc k
      simp only [toDecAux, if_pos h10, List.foldl_cons]
      have : digitVal (decDigit (n % 10)) = n := by
        rw [digitVal_decDigit (n % 10) (Nat.mod_lt _ (by norm_num))]
        omega
      rw [this]
    · have hrec : n / 10 < f := by omega
      obtain ⟨p, hp, hfold⟩ := ih (n / 10) hrec
      refine ⟨p * 10, by omega, ?_⟩
      intro acc k
      simp only [toDecAux, if_neg h10]
      rw [hfold (decDigit (n % 10) :: acc) k, List.foldl_cons,
        digitVal_decDigit (n % 10) (Nat.mod_lt _ (by norm_num))]
      have : (k * p + n / 10) * 10 + n % 10 = k * (p * 10) + n := by
        have := Nat.div_add_mod n 10
        ring_nf
        omega
      rw [this]

theorem digitsToNat_natChars (n : Nat) : digitsToNat (natChars n) = n := by
  obtain ⟨p, _, hfold⟩ := toDecAux_foldl (n + 1) n (Nat.lt_succ_self n)
  have h := hfold [] 0
  simpa [digitsToNat, natChars] using h

theorem natChars_all_digit (n : Nat) : (natChars n).all isDigitCh = true :=
  toDecAux_all isDigitCh decDigit_isDigit (n + 1) n [] rfl

theorem natChars_ne_nil (n : Nat) : natChars n ≠ [] := by
  have h := toDecAux_length (n + 1) n [] (Nat.succ_pos n)
  intro he
  rw [natChars] at he
  rw [he] at h
  simp at h

theorem mem_natChars_digit (n : Nat) (c : Char) (hc : c ∈ natChars n) : isDigitCh c = true := by
  have h := natChars_all_digit n
  rw [List.all_eq_true] at h
  exact h c hc

theorem mem_natChars_ne_dot (n : Nat) (c : Char) (hc : c ∈ natChars n) : c ≠ '.' := by
  intro he
  subst he
  have := mem_natChars_digit n '.' hc
  simp [isDigitCh] at this

theorem parsePart_natChars (n : Nat) : parsePart (natChars n) = some n := by
  have h1 : (natChars n).isEmpty = false := by
    cases h : natChars n with
    | nil => exact absurd h (natChars_ne_nil n)
    | cons c cs => rfl
  rw [parsePart, h1]
  simp [natChars_all_digit n, digitsToNat_natChars n]

theorem parse_version_renderVersion (t : Nat × Nat × Nat) :
    parse_version (renderVersion t) = some t := by
  obtain ⟨a, b, c⟩ := t
  have hsplit :
      splitOnChar '.' (natChars a ++ '.' :: natChars b ++ '.' :: natChars c)
        = [natChars a, natChars b, natChars c] := by
    have h1 : splitOnChar '.' (natChars a ++ '.' :: (natChars b ++ '.' :: natChars c))
        = splitOnChar '.' (natChars a) ++ splitOnChar '.' (natChars b ++ '.' :: natChars c) :=
      splitOnChar_append_sep '.' (natChars a) _
    have h2 : splitOnChar '.' (natChars b ++ '.' :: natChars c)
        = splitOnChar '.' (natChars b) ++ splitOnChar '.' (natChars c) :=
      splitOnChar_append_sep '.' (natChars b) _
    have ha := splitOnChar_no_sep '.' (natChars a) (mem_natChars_ne_dot a)
    have hb := splitOnChar_no_sep '.' (natChars b) (mem_natChars_ne_dot b)
    have hc := splitOnChar_no_sep '.' (natChars c) (mem_natChars_ne_dot c)
    simpa [h2, ha, hb, hc] using h1
  rw [parse_version]
  simp only [renderVersion, hsplit, parsePart_natChars]

/-! ### Store lemmas -/

theorem lookupName_insertName_self {α : Type} (l : List (String × α)) (k : String) (v : α) :
    lookupName (insertName l k v) k = some v := by
  induction l with
  | nil => simp [insertName, lookupName]
  | cons p rest ih =>
    obtain ⟨k', w⟩ := p
    by_cases h : k' = k
    · simp [insertName, h, lookupName]
    · simp [insertName, h, lookupName, ih]

theorem initialize_command_registers (st : VMState) (w : Bool) (name d : String)
    (tg dp : List String) (n : String) :
    (lookupName ((initialize_command st w name d tg dp n).1).metadata name).isSome = true := by
  cases h : lookupName st.metadata name with
  | some md => simp [initialize_command, h]
  | none =>
    simp only [initialize_command, h]
    cases w with
    | true =>
      cases hf : lookupName st.workflowFiles name with
      | none => simp [hf, lookupName_insertName_self]
      | some c => simp [hf, lookupName_insertName_self]
    | false =>
      cases hf : lookupName st.toolFiles name with
      | none => simp [hf, lookupName_insertName_self]
      | some c => simp [hf, lookupName_insertName_self]

/-! ### Claims C1, C2, C3, C5, C10 -/

/-- C1 (counterexample): with command `alpha` registered at current version
`2.0.0`, `check_compatibility` against required version `1.5.0` returns
`true`, although `(2,0,0)` is not component-wise ≥ `(1,5,0)` — the claim's
"and false otherwise" fails because the code compares tuples
lexicographically. -/
theorem c1_counterexample :
    check_compatibility stAlpha "alpha" "1.5.0" = Except.ok true
    ∧ parse_version "2.0.0" = some (2, 0, 0)
    ∧ parse_version "1.5.0" = some (1, 5, 0)
    ∧ componentwiseGe (2, 0, 0) (1, 5, 0) = false := by
  refine ⟨?_, by decide, by decide, by decide⟩
  rfl

/-- C1 (amended): for every pair of valid version strings, a registered
command's `check_compatibility` returns the lexicographic triple comparison
`current ≥ required` (not the component-wise one), and it returns false for
a command name not present in the metadata store. -/
theorem c1_check_compatibility_lexicographic :
    (∀ (st : VMState) (name req : String) (md : CommandMetadata) (t u : Nat × Nat × Nat),
        lookupName st.metadata name = some md →
        parse_version md.current_version = some t →
        parse_version req = some u →
        check_compatibility st name req = Except.ok (lexGe t u))
    ∧ (∀ (st : VMState) (name req : String),
        lookupName st.metadata name = none →
        check_compatibility st name req = Except.ok false) := by
  constructor
  · intro st name req md t u h1 h2 h3
    simp [check_compatibility, h1, h2, h3]
  · intro st name req h
    simp [check_compatibility, h]

theorem c1_witness :
    check_compatibility stAlpha "alpha" "1.2.3" = Except.ok true
    ∧ check_compatibility stEmpty "gamma" "1.0.0" = Except.ok false := by
  constructor
  · have h := c1_check_compatibility_lexicographic.1 stAlpha "alpha" "1.2.3" mdAlpha
      (2, 0, 0) (1, 2, 3) (by decide) (by decide) (by decide)
    simpa using h
  · exact c1_check_compatibility_lexicographic.2 stEmpty "gamma" "1.0.0" (by decide)

/-- C2: incrementing a valid version `a.b.c` yields `(a+1).0.0` for a major
change, `a.(b+1).0` for a minor change and `a.b.(c+1)` for a patch change;
in particular `"1.2.3"` goes to `"2.0.0"` / `"1.3.0"` / `"1.2.4"`, and
`"0.0.0"` by patch to `"0.0.1"`. -/
theorem c2_increment_version :
    (∀ (s : String) (a b c : Nat), parse_version s = some (a, b, c) →
        increment_version s ChangeType.major = some (renderVersion (a + 1, 0, 0))
      ∧ increment_version s ChangeType.minor = some (renderVersion (a, b + 1, 0))
      ∧ increment_version s ChangeType.patch = some (renderVersion (a, b, c + 1)))
    ∧ increment_version "1.2.3" ChangeType.major = some "2.0.0"
    ∧ increment_version "1.2.3" ChangeType.minor = some "1.3.0"
    ∧ increment_version "1.2.3" ChangeType.patch = some "1.2.4"
    ∧ increment_version "0.0.0" ChangeType.patch = some "0.0.1" := by
  refine ⟨?_, by decide, by decide, by decide, by decide⟩
  intro s a b c h
  refine ⟨?_, ?_, ?_⟩ <;> simp [increment_version, h]

theorem c2_witness :
    parse_version "4.5.6" = some (4, 5, 6)
      ∧ increment_version "4.5.6" ChangeType.major = some (renderVersion (5, 0, 0)) :=
  ⟨by decide, (c2_increment_version.1 "4.5.6" 4 5 6 (by decide)).1⟩

/-- C3: `update_version` on an unregistered command, or on one whose stored
current version does not fully match `MAJOR.MINOR.PATCH`, raises and leaves
the whole persisted state (store, command files, changelog) exactly as it
was. -/
theorem c3_update_version_failure_preserves_state
    (st : VMState) (name : String) (ct : ChangeType)
    (chs br dep : List String) (now date : String)
    (h : lookupName st.metadata name = none
      ∨ ∃ md, lookupName st.metadata name = some md
          ∧ parse_version md.current_version = none) :
    ∃ e, update_version st name ct chs br dep now date = (st, Except.error e) := by
  rcases h with h | ⟨md, hmd, hparse⟩
  · exact ⟨"Command " ++ name ++ " not found in metadata", by simp [update_version, h]⟩
  · exact ⟨"Invalid version format: " ++ md.current_version,
      by simp [update_version, hmd, increment_version, hparse]⟩

theorem c3_witness :
    (∃ e, update_version stEmpty "ghost" ChangeType.patch ["x"] [] [] "t" "d"
        = (stEmpty, Except.error e))
    ∧ (∃ e, update_version stBad "bad" ChangeType.patch ["x"] [] [] "t" "d"
        = (stBad, Except.error e)) :=
  ⟨c3_update_version_failure_preserves_state stEmpty "ghost" ChangeType.patch ["x"] [] [] "t" "d"
      (Or.inl (by decide)),
   c3_update_version_failure_preserves_state stBad "bad" ChangeType.patch ["x"] [] [] "t" "d"
      (Or.inr ⟨mdBad, by decide, by decide⟩)⟩

/-- C5: re-initializing an already-registered command raises no error and
returns the state unchanged; hence initializing twice yields exactly the
state of the first initialization. -/
theorem c5_initialize_idempotent :
    (∀ (st : VMState) (w : Bool) (name desc : String) (tags deps : List String) (now : String)
        (md : CommandMetadata), lookupName st.metadata name = some md →
        initialize_command st w name desc tags deps now = (st, Except.ok ()))
    ∧ (∀ (st st1 : VMState) (w1 w2 : Bool) (name d1 d2 : String)
        (tg1 tg2 dp1 dp2 : List String) (n1 n2 : String) (r : Except String Unit),
        initialize_command st w1 name d1 tg1 dp1 n1 = (st1, r) →
        initialize_command st1 w2 name d2 tg2 dp2 n2 = (st1, Except.ok ())) := by
  have base : ∀ (st : VMState) (w : Bool) (name desc : String) (tags deps : List String)
      (now : String) (md : CommandMetadata), lookupName st.metadata name = some md →
      initialize_command st w name desc tags deps now = (st, Except.ok ()) := by
    intro st w name desc tags deps now md h
    simp [initialize_command, h]
  refine ⟨base, ?_⟩
  intro st st1 w1 w2 name d1 d2 tg1 tg2 dp1 dp2 n1 n2 r hinit
  have hreg := initialize_command_registers st w1 name d1 tg1 dp1 n1
  rw [hinit] at hreg
  obtain ⟨md1, hmd1⟩ := Option.isSome_iff_exists.mp hreg
  exact base st1 w2 name d2 tg2 dp2 n2 md1 hmd1

theorem c5_witness :
    initialize_command stCmd true "cmd" "x" [] [] "t2" = (stCmd, Except.ok ()) :=
  c5_initialize_idempotent.2 stEmpty stCmd true true "cmd" "" "x" [] [] [] [] "t" "t2"
    (Except.error "command file not found") rfl

/-- C10: `update_version` on a registered command whose markdown file exists
under neither `workflows/` nor `tools/` still succeeds: it appends the new
history entry to the store, appends the changelog entry, and rewrites no
command file. -/
theorem c10_update_without_file
    (st : VMState) (name : String) (ct : ChangeType) (chs br dep : List String)
    (now date : String) (md : CommandMetadata) (nv : String)
    (hmd : lookupName st.metadata name = some md)
    (hinc : increment_version md.current_version ct = some nv)
    (hwf : lookupName st.workflowFiles name = none)
    (htf : lookupName st.toolFiles name = none) :
    ∃ st', update_version st name ct chs br dep now date = (st', Except.ok ())
      ∧ st'.workflowFiles = st.workflowFiles
      ∧ st'.toolFiles = st.toolFiles
      ∧ lookupName st'.metadata name = some
          { md with
            current_version := nv
            last_updated := now
            version_history := md.version_history ++ [⟨nv, now, chs, br, dep⟩] }
      ∧ st'.changelog =
          some (update_changelog st.changelog name nv date ⟨nv, now, chs, br, dep⟩) := by
  refine ⟨{ st with
      metadata := insertName st.metadata name
        { md with
          current_version := nv
          last_updated := now
          version_history := md.version_history ++ [⟨nv, now, chs, br, dep⟩] }
      changelog := some (update_changelog st.changelog name nv date ⟨nv, now, chs, br, dep⟩) },
    ?_, rfl, rfl, lookupName_insertName_self st.metadata name _, rfl⟩
  have hfind : find_command_file
      { st with
        metadata := insertName st.metadata name
          { md with
            current_version := nv
            last_updated := now
            version_history := md.version_history ++ [⟨nv, now, chs, br, dep⟩] } } name = none := by
    simp [find_command_file, hwf, htf]
  simp only [update_version, hmd, hinc, hfind]

theorem c10_witness :
    ∃ st', update_version stSolo "solo" ChangeType.minor ["c"] [] [] "t1" "2026-01-01"
        = (st', Except.ok ())
      ∧ st'.workflowFiles = stSolo.workflowFiles
      ∧ st'.toolFiles = stSolo.toolFiles
      ∧ lookupName st'.metadata "solo" = some
          { mdSolo with
            current_version := "1.1.0"
            last_updated := "t1"
            version_history := mdSolo.version_history ++ [⟨"1.1.0", "t1", ["c"], [], []⟩] }
      ∧ st'.changelog = some (update_changelog stSolo.changelog "solo" "1.1.0" "2026-01-01"
          ⟨"1.1.0", "t1", ["c"], [], []⟩) :=
  c10_update_without_file stSolo "solo" ChangeType.minor ["c"] [] [] "t1" "2026-01-01"
    mdSolo "1.1.0" (by decide) (by decide) (by decide) (by decide)

/-! ### Claims C8 and C9 (validators) -/

theorem headerWarnsAux_level (ps : List (Nat × Nat)) (f : ValidationResult)
    (hf : f ∈ headerWarnsAux ps) : f.level = ValidationLevel.warning := by
  induction ps with
  | nil => simp [headerWarnsAux] at hf
  | cons p ps ih =>
    cases ps with
    | nil => simp [headerWarnsAux] at hf
    | cons q qs =>
      obtain ⟨pl, pline⟩ := p
      obtain ⟨cl, cline⟩ := q
      simp only [headerWarnsAux, List.mem_append] at hf
      rcases hf with hf | hf
      · by_cases h : pl + 1 < cl
        · rw [if_pos h] at hf
          simp only [List.mem_singleton] at hf
          subst hf
          rfl
        · rw [if_neg h] at hf
          simp at hf
      · exact ih hf

/-- C8: validation reports the "unclosed code block" error exactly when the
total count of triple-backtick fence markers in the content is odd; a
document with three markers produces it, one with an even count does not. -/
theorem c8_unclosed_code_block :
    (∀ content : String,
        unclosedCodeBlockError ∈ validate_markdown content
          ↔ countTripleBacktick content.data % 2 = 1)
    ∧ unclosedCodeBlockError ∈ validate_markdown "```\n```\n```"
    ∧ unclosedCodeBlockError ∉ validate_markdown "```\n```" := by
  have main : ∀ content : String,
      unclosedCodeBlockError ∈ validate_markdown content
        ↔ countTripleBacktick content.data % 2 = 1 := by
    intro content
    simp only [validate_markdown, List.mem_append]
    constructor
    · rintro (h | h)
      · by_cases hc : countTripleBacktick content.data % 2 ≠ 0
        · omega
        · rw [if_neg hc] at h
          simp at h
      · have hl := headerWarnsAux_level _ _ h
        simp [unclosedCodeBlockError] at hl
    · intro h
      left
      rw [if_pos (by omega)]
      simp
  refine ⟨main, ?_, ?_⟩
  · rw [main]
    decide
  · rw [main]
    decide

theorem taskToolWarning_ne_subagentTypeWarning : taskToolWarning ≠ subagentTypeWarning := by
  decide

/-- C9 (counterexample): the document consisting of the single phrase
`Task tool` does not "mention task-delegation mechanics" in the claim's
sense (it lacks the word "subagent"), yet the validator emits no
task-delegation warning for it — so "warning exactly when the document does
not contain both" fails on the code. -/
theorem c9_counterexample :
    ¬ mentionsDelegation "Task tool"
    ∧ taskToolWarning ∉ validate_task_tool_usage "Task tool" := by
  constructor
  · unfold mentionsDelegation
    decide
  · decide

/-- C9 (amended): the task-delegation warning is emitted exactly when the
document contains neither the literal phrase `Task tool` nor the substring
`subagent` in any case — i.e. when both are absent, not merely when at least
one of them is. -/
theorem c9_task_tool_warning_amended (content : String) :
    taskToolWarning ∈ validate_task_tool_usage content
      ↔ (containsSub "Task tool".data content.data = false
        ∧ containsSub "subagent".data (lowerStr content.data) = false) := by
  have hne := taskToolWarning_ne_subagentTypeWarning
  cases h1 : containsSub "Task tool".data content.data <;>
    cases h2 : containsSub "subagent".data (lowerStr content.data) <;>
    cases h3 : containsSub "subagent_type".data content.data <;>
    simp [validate_task_tool_usage, h1, h2, h3, hne]

/-! ### Claim C4 (update-sequence invariants) -/

theorem versionLe_increment (s nv : String) (ct : ChangeType)
    (h : increment_version s ct = some nv) : versionLe s nv := by
  cases hp : parse_version s with
  | none => simp [increment_version, hp] at h
  | some t =>
    obtain ⟨a, b, c⟩ := t
    cases ct with
    | major =>
      simp only [increment_version, hp, Option.some.injEq] at h
      refine ⟨(a, b, c), (a + 1, 0, 0), hp, ?_, ?_⟩
      · rw [← h]; exact parse_version_renderVersion _
      · simp [lexGe]
    | minor =>
      simp only [increment_version, hp, Option.some.injEq] at h
      refine ⟨(a, b, c), (a, b + 1, 0), hp, ?_, ?_⟩
      · rw [← h]; exact parse_version_renderVersion _
      · simp [lexGe]
    | patch =>
      simp only [increment_version, hp, Option.some.injEq] at h
      refine ⟨(a, b, c), (a, b, c + 1), hp, ?_, ?_⟩
      · rw [← h]; exact parse_version_renderVersion _
      · simp [lexGe]

theorem update_version_ok_metadata
    (st st2 : VMState) (name : String) (ct : ChangeType) (chs br dep : List String)
    (now date : String)
    (h : update_version st name ct chs br dep now date = (st2, Except.ok ())) :
    ∃ md nv, lookupName st.metadata name = some md
      ∧ increment_version md.current_version ct = some nv
      ∧ lookupName st2.metadata name = some
          { md with
            current_version := nv
            last_updated := now
            version_history := md.version_history ++ [⟨nv, now, chs, br, dep⟩] } := by
  cases hmd : lookupName st.metadata name with
  | none => simp [update_version, hmd] at h
  | some md =>
    cases hinc : increment_version md.current_version ct with
    | none => simp [update_version, hmd, hinc] at h
    | some nv =>
      refine ⟨md, nv, rfl, hinc, ?_⟩
      simp only [update_version, hmd, hinc] at h
      split at h <;>
      · injection h with h1 h2
        subst h1
        exact lookupName_insertName_self st.metadata name _

theorem runUpdates_append (name : String) (xs ys : List UpdateReq) :
    ∀ st0 stN, runUpdates name st0 (xs ++ ys) = some stN →
      ∃ stM, runUpdates name st0 xs = some stM ∧ runUpdates name stM ys = some stN := by
  induction xs with
  | nil =>
    intro st0 stN h
    exact ⟨st0, rfl, by simpa using h⟩
  | cons r rs ih =>
    intro st0 stN h
    simp only [List.cons_append, runUpdates] at h ⊢
    cases hu : update_version st0 name r.change_type r.changes r.breaking_changes
        r.deprecated_features r.now r.date with
    | mk st2 res =>
      rw [hu] at h
      cases res with
      | error e => exact absurd (h : (none : Option VMState) = some stN) (by simp)
      | ok u =>
        obtain ⟨stM, h1, h2⟩ := ih st2 stN h
        exact ⟨stM, h1, h2⟩

theorem runUpdates_metadata (name : String) (reqs : List UpdateReq) :
    ∀ (st0 stN : VMState) (md0 : CommandMetadata),
      lookupName st0.metadata name = some md0 →
      (∃ e, md0.version_history.getLast? = some e ∧ md0.current_version = e.version) →
      List.Chain' versionLe (md0.version_history.map (fun v => v.version)) →
      runUpdates name st0 reqs = some stN →
      ∃ mdN, lookupName stN.metadata name = some mdN
        ∧ mdN.version_history.length = md0.version_history.length + reqs.length
        ∧ (∃ e, mdN.version_history.getLast? = some e ∧ mdN.current_version = e.version)
        ∧ List.Chain' versionLe (mdN.version_history.map (fun v => v.version)) := by
  induction reqs with
  | nil =>
    intro st0 stN md0 h1 h2 h3 hrun
    simp only [runUpdates, Option.some.injEq] at hrun
    subst hrun
    exact ⟨md0, h1, by simp, h2, h3⟩
  | cons r rs ih =>
    intro st0 stN md0 h1 h2 h3 hrun
    simp only [runUpdates] at hrun
    cases hu : update_version st0 name r.change_type r.changes r.breaking_changes
        r.deprecated_features r.now r.date with
    | mk st2 res =>
      rw [hu] at hrun
      cases res with
      | error e => exact absurd (hrun : (none : Option VMState) = some stN) (by simp)
      | ok u =>
        cases u
        obtain ⟨md, nv, hmd, hinc, hlook2⟩ :=
          update_version_ok_metadata st0 st2 name r.change_type r.changes r.breaking_changes
            r.deprecated_features r.now r.date hu
        rw [h1] at hmd
        injection hmd with hmd
        subst hmd
        obtain ⟨e0, he0, hcur0⟩ := h2
        have hchain2 : List.Chain' versionLe
            (List.map (fun v : CommandVersion => v.version)
              (md0.version_history ++
                [(⟨nv, r.now, r.changes, r.breaking_changes, r.deprecated_features⟩ :
                  CommandVersion)])) := by
          rw [List.map_append, List.chain'_append]
          refine ⟨h3, by simp, ?_⟩
          intro x hx y hy
          simp only [List.getLast?_map, he0, Option.map_some', Option.mem_def,
            Option.some.injEq] at hx
          simp only [List.map_cons, List.map_nil, List.head?_cons, Option.mem_def,
            Option.some.injEq] at hy
          subst hx
          subst hy
          rw [← hcur0]
          exact versionLe_increment md0.current_version nv r.change_type hinc
        obtain ⟨mdN, g1, g2, g3, g4⟩ := ih st2 stN _ hlook2
          ⟨⟨nv, r.now, r.changes, r.breaking_changes, r.deprecated_features⟩, by simp, rfl⟩
          hchain2 hrun
        refine ⟨mdN, g1, ?_, g3, g4⟩
        rw [g2]
        simp only [List.length_append, List.length_cons, List.length_nil]
        omega

theorem initialize_command_fresh (st : VMState) (w : Bool) (name d : String)
    (tg dp : List String) (n : String) (h : lookupName st.metadata name = none) :
    lookupName ((initialize_command st w name d tg dp n).1).metadata name = some
      ⟨name, if w then "workflow" else "tool", d, "1.0.0", n, n, tg, dp,
        [⟨"1.0.0", n, ["Initial release"], [], []⟩]⟩ := by
  cases w with
  | true =>
    simp only [initialize_command, h]
    cases hf : lookupName st.workflowFiles name with
    | none => simpa [hf] using lookupName_insertName_self st.metadata name _
    | some c => simpa [hf] using lookupName_insertName_self st.metadata name _
  | false =>
    simp only [initialize_command, h]
    cases hf : lookupName st.toolFiles name with
    | none => simpa [hf] using lookupName_insertName_self st.metadata name _
    | some c => simpa [hf] using lookupName_insertName_self st.metadata name _

/-- C4: after initializing a fresh command and running `n` successful
`update_version` operations on it, its history length is `n + 1`, its
current version is the version of the last history entry, the sequence of
history versions (hence of current versions across the updates) is
monotonically non-decreasing in the version order, and after every prefix of
`k` updates the history length is exactly `k + 1` (one entry per update). -/
theorem c4_update_sequence_invariants
    (st st0 stN : VMState) (w : Bool) (name d : String) (tg dp : List String) (n0 : String)
    (r0 : Except String Unit) (reqs : List UpdateReq)
    (hfresh : lookupName st.metadata name = none)
    (hinit : initialize_command st w name d tg dp n0 = (st0, r0))
    (hrun : runUpdates name st0 reqs = some stN) :
    ∃ md, lookupName stN.metadata name = some md
      ∧ md.version_history.length = reqs.length + 1
      ∧ (∃ e, md.version_history.getLast? = some e ∧ md.current_version = e.version)
      ∧ List.Chain' versionLe (md.version_history.map (fun v => v.version))
      ∧ (∀ k, k ≤ reqs.length → ∃ stk mdk,
            runUpdates name st0 (reqs.take k) = some stk
            ∧ lookupName stk.metadata name = some mdk
            ∧ mdk.version_history.length = k + 1) := by
  have hlook0 : lookupName st0.metadata name = some
      ⟨name, if w then "workflow" else "tool", d, "1.0.0", n0, n0, tg, dp,
        [⟨"1.0.0", n0, ["Initial release"], [], []⟩]⟩ := by
    have := initialize_command_fresh st w name d tg dp n0 hfresh
    rwa [hinit] at this
  obtain ⟨mdN, g1, g2, g3, g4⟩ := runUpdates_metadata name reqs st0 stN _ hlook0
    ⟨⟨"1.0.0", n0, ["Initial release"], [], []⟩, rfl, rfl⟩ (by simp) hrun
  have g2' : mdN.version_history.length = 1 + reqs.length := by simpa using g2
  refine ⟨mdN, g1, by omega, g3, g4, ?_⟩
  intro k hk
  have hsplit : reqs = reqs.take k ++ reqs.drop k := (List.take_append_drop k reqs).symm
  rw [hsplit] at hrun
  obtain ⟨stM, hM1, hM2⟩ := runUpdates_append name (reqs.take k) (reqs.drop k) st0 stN hrun
  obtain ⟨mdk, k1, k2, k3, k4⟩ := runUpdates_metadata name (reqs.take k) st0 stM _ hlook0
    ⟨⟨"1.0.0", n0, ["Initial release"], [], []⟩, rfl, rfl⟩ (by simp) hM1
  refine ⟨stM, mdk, hM1, k1, ?_⟩
  have k2' : mdk.version_history.length = 1 + (reqs.take k).length := by simpa using k2
  have hlen : (reqs.take k).length = k := by
    simp [List.length_take, Nat.min_eq_left hk]
  omega

theorem c4_witness :
    ∃ stN, runUpdates "cmd" stCmd [⟨ChangeType.patch, ["c"], [], [], "t1", "d1"⟩] = some stN
      ∧ ∃ md, lookupName stN.metadata "cmd" = some md
          ∧ md.version_history.length = 2
          ∧ List.Chain' versionLe (md.version_history.map (fun v => v.version)) := by
  cases hres : runUpdates "cmd" stCmd [⟨ChangeType.patch, ["c"], [], [], "t1", "d1"⟩] with
  | none => exact absurd hres (by decide)
  | some stN =>
    obtain ⟨md, h1, h2, h3, h4, h5⟩ := c4_update_sequence_invariants stEmpty stCmd stN true
      "cmd" "" [] [] "t" (Except.error "command file not found")
      [⟨ChangeType.patch, ["c"], [], [], "t1", "d1"⟩] rfl rfl hres
    exact ⟨stN, rfl, md, h1, by simpa using h2, h4⟩

/-! ### Claim C7 (changelog insertion) -/

theorem splitOnChar_cons_sep (sep : Char) (cs : List Char) :
    splitOnChar sep (sep :: cs) = [] :: splitOnChar sep cs := by
  rw [splitOnChar_cons, if_pos rfl]

theorem splitOnChar_joinSep (sep : Char) :
    ∀ P : List (List Char), (∀ l ∈ P, sep ∉ l) → P ≠ [] →
      splitOnChar sep (joinSep sep P) = P := by
  intro P
  induction P with
  | nil => intro _ h; exact absurd rfl h
  | cons x P ih =>
    intro hP _
    cases P with
    | nil =>
      show splitOnChar sep (joinSep sep [x]) = [x]
      rw [show joinSep sep [x] = x from rfl]
      exact splitOnChar_no_sep sep x (fun c hc he => hP x (by simp) (he ▸ hc))
    | cons y P' =>
      show splitOnChar sep (x ++ sep :: joinSep sep (y :: P')) = x :: y :: P'
      rw [splitOnChar_append_sep,
        splitOnChar_no_sep sep x (fun c hc he => hP x (by simp) (he ▸ hc)),
        ih (fun l hl => hP l (by simp [hl])) (by simp)]
      rfl

theorem splitOnChar_joinSep_cons (sep : Char) (E : List Char) (Q : List (List Char))
    (hQ : ∀ l ∈ Q, sep ∉ l) :
    splitOnChar sep (joinSep sep (E :: Q)) = splitOnChar sep E ++ Q := by
  cases Q with
  | nil => simp [joinSep]
  | cons y Q' =>
    show splitOnChar sep (E ++ sep :: joinSep sep (y :: Q')) = splitOnChar sep E ++ y :: Q'
    rw [splitOnChar_append_sep,
      splitOnChar_joinSep sep (y :: Q') hQ (by simp)]

theorem splitOnChar_joinSep_middle (sep : Char) (E : List Char) :
    ∀ (P Q : List (List Char)), (∀ l ∈ P, sep ∉ l) → (∀ l ∈ Q, sep ∉ l) → P ≠ [] →
      splitOnChar sep (joinSep sep (P ++ E :: Q)) = P ++ splitOnChar sep E ++ Q := by
  intro P
  induction P with
  | nil => intro Q _ _ h; exact absurd rfl h
  | cons x P' ih =>
    intro Q hP hQ _
    cases P' with
    | nil =>
      show splitOnChar sep (joinSep sep (x :: E :: Q)) = [x] ++ splitOnChar sep E ++ Q
      show splitOnChar sep (x ++ sep :: joinSep sep (E :: Q)) = [x] ++ splitOnChar sep E ++ Q
      rw [splitOnChar_append_sep,
        splitOnChar_no_sep sep x (fun c hc he => hP x (by simp) (he ▸ hc)),
        splitOnChar_joinSep_cons sep E Q hQ]
      rfl
    | cons z P'' =>
      show splitOnChar sep (x ++ sep :: joinSep sep ((z :: P'') ++ E :: Q))
        = (x :: z :: P'') ++ splitOnChar sep E ++ Q
      rw [splitOnChar_append_sep,
        splitOnChar_no_sep sep x (fun c hc he => hP x (by simp) (he ▸ hc)),
        ih Q (fun l hl => hP l (by simp [hl])) hQ (by simp)]
      rfl

theorem splitOnChar_bulletLines (items : List String)
    (hitems : ∀ s ∈ items, '\n' ∉ s.data) (rest : List Char) :
    splitOnChar '\n' (bulletLines items ++ rest)
      = items.map (fun s => '-' :: ' ' :: s.data) ++ splitOnChar '\n' rest := by
  induction items with
  | nil => simp [bulletLines]
  | cons s items ih =>
    have hs : ∀ c ∈ '-' :: ' ' :: s.data, c ≠ '\n' := by
      intro c hc he
      subst he
      rcases List.mem_cons.mp hc with h1 | hc2
      · exact absurd h1 (by decide)
      rcases List.mem_cons.mp hc2 with h1 | hc3
      · exact absurd h1 (by decide)
      exact hitems s (by simp) hc3
    have : bulletLines (s :: items) ++ rest
        = ('-' :: ' ' :: s.data) ++ '\n' :: (bulletLines items ++ rest) := by
      simp [bulletLines, List.flatten]
    rw [this, splitOnChar_append_sep, splitOnChar_no_sep '\n' _ hs,
      ih (fun t ht => hitems t (by simp [ht]))]
    rfl

theorem splitOnChar_block (T : List Char) (hT : ∀ c ∈ T, c ≠ '\n') (items : List String)
    (hitems : ∀ s ∈ items, '\n' ∉ s.data) (rest : List Char) :
    splitOnChar '\n'
        ((if items.isEmpty then [] else ('\n' :: T) ++ '\n' :: bulletLines items) ++ rest)
      = (if items.isEmpty then []
         else [[], T] ++ items.map (fun s => '-' :: ' ' :: s.data)) ++ splitOnChar '\n' rest := by
  cases items with
  | nil => simp
  | cons s items =>
    simp only [List.isEmpty_cons, if_neg (by simp : ¬False)]
    have : (('\n' :: T) ++ '\n' :: bulletLines (s :: items)) ++ rest
        = '\n' :: (T ++ '\n' :: (bulletLines (s :: items) ++ rest)) := by
      simp
    rw [show (if (false : Bool) = true then ([] : List Char)
        else ('\n' :: T) ++ '\n' :: bulletLines (s :: items))
      = ('\n' :: T) ++ '\n' :: bulletLines (s :: items) from rfl]
    rw [this, splitOnChar_cons_sep, splitOnChar_append_sep, splitOnChar_no_sep '\n' T hT,
      splitOnChar_bulletLines (s :: items) hitems rest]
    rfl

theorem splitOnChar_nosep_append_sep (sep : Char) (A R : List Char)
    (hA : ∀ c ∈ A, c ≠ sep) :
    splitOnChar sep (A ++ sep :: R) = A :: splitOnChar sep R := by
  rw [splitOnChar_append_sep, splitOnChar_no_sep sep A hA]
  rfl

theorem splitOnChar_changelogEntry (cname nv date : String) (entry : CommandVersion)
    (hname : '\n' ∉ cname.data) (hnv : '\n' ∉ nv.data) (hdate : '\n' ∉ date.data)
    (hbr : ∀ s ∈ entry.breaking_changes, '\n' ∉ s.data)
    (hch : ∀ s ∈ entry.changes, '\n' ∉ s.data)
    (hdep : ∀ s ∈ entry.deprecated_features, '\n' ∉ s.data) :
    splitOnChar '\n' (changelogEntry cname nv date entry)
      = entryLines cname nv date entry := by
  have hHL : ∀ c ∈ "## [".data ++ (cname.data ++ ("] ".data ++ (nv.data
      ++ (" - ".data ++ date.data)))), c ≠ '\n' := by
    intro c hc he
    subst he
    simp only [List.mem_append] at hc
    rcases hc with hc | hc | hc | hc | hc | hc
    · exact absurd hc (by decide)
    · exact hname hc
    · exact absurd hc (by decide)
    · exact hnv hc
    · exact absurd hc (by decide)
    · exact hdate hc
  have hform : changelogEntry cname nv date entry
      = '\n' :: (("## [".data ++ (cname.data ++ ("] ".data ++ (nv.data
            ++ (" - ".data ++ date.data)))))
          ++ '\n' ::
          ((if entry.breaking_changes.isEmpty then []
            else ('\n' :: "### Breaking Changes".data)
              ++ '\n' :: bulletLines entry.breaking_changes)
          ++ ((if entry.changes.isEmpty then []
            else ('\n' :: "### Changes".data) ++ '\n' :: bulletLines entry.changes)
          ++ ((if entry.deprecated_features.isEmpty then []
            else ('\n' :: "### Deprecated".data)
              ++ '\n' :: bulletLines entry.deprecated_features)
          ++ [])))) := by
    simp [changelogEntry, List.append_assoc]
  rw [hform, splitOnChar_cons_sep, splitOnChar_nosep_append_sep '\n' _ _ hHL,
    splitOnChar_block "### Breaking Changes".data (by decide) entry.breaking_changes hbr,
    splitOnChar_block "### Changes".data (by decide) entry.changes hch,
    splitOnChar_block "### Deprecated".data (by decide) entry.deprecated_features hdep]
  simp [entryLines, splitOnChar]

theorem firstHeaderIdx_bounds :
    ∀ (L : List (List Char)) (n i : Nat), firstHeaderIdx n L = some i →
      n ≤ i ∧ i < n + L.length := by
  intro L
  induction L with
  | nil => intro n i h; simp [firstHeaderIdx] at h
  | cons l ls ih =>
    intro n i h
    rw [firstHeaderIdx] at h
    by_cases hp : isPre "# ".data l = true
    · rw [if_pos hp] at h
      injection h with h
      subst h
      refine ⟨Nat.le_refl n, ?_⟩
      simp only [List.length_cons]
      omega
    · rw [if_neg hp] at h
      obtain ⟨h1, h2⟩ := ih (n + 1) i h
      refine ⟨by omega, ?_⟩
      simp only [List.length_cons]
      omega

/-- C7: for an existing changelog with a top-level header line, the update
inserts exactly the entry block (blank line, `## [command] version - date`
header, then the optional Breaking Changes / Changes / Deprecated bullet
subsections in that fixed order with empty ones omitted, and a trailing
blank line) immediately after the first `'# '` line, preserving every prior
line before and after the insertion point; with no changelog file, a fresh
one is created whose lines are the default title followed by the entry. -/
theorem c7_changelog_insertion
    (content cname nv date : String) (entry : CommandVersion) (i : Nat)
    (hname : '\n' ∉ cname.data) (hnv : '\n' ∉ nv.data) (hdate : '\n' ∉ date.data)
    (hbr : ∀ s ∈ entry.breaking_changes, '\n' ∉ s.data)
    (hch : ∀ s ∈ entry.changes, '\n' ∉ s.data)
    (hdep : ∀ s ∈ entry.deprecated_features, '\n' ∉ s.data)
    (hh : firstHeaderIdx 0 (splitOnChar '\n' content.data) = some i) :
    splitOnChar '\n' (update_changelog (some content) cname nv date entry).data
      = (splitOnChar '\n' content.data).take (i + 1)
        ++ entryLines cname nv date entry
        ++ (splitOnChar '\n' content.data).drop (i + 1)
    ∧ splitOnChar '\n' (update_changelog none cname nv date entry).data
      = "# Claude Code Commands Changelog".data :: entryLines cname nv date entry := by
  have hsplitE := splitOnChar_changelogEntry cname nv date entry hname hnv hdate hbr hch hdep
  have hLfree : ∀ l ∈ splitOnChar '\n' content.data, '\n' ∉ l := by
    intro l hl hmem
    exact mem_splitOnChar_not_sep '\n' content.data l hl '\n' hmem rfl
  constructor
  · have hidx : insertIndex (splitOnChar '\n' content.data) = i + 1 := by
      rw [insertIndex, hh]
    have hbound := firstHeaderIdx_bounds (splitOnChar '\n' content.data) 0 i hh
    have hPne : (splitOnChar '\n' content.data).take (i + 1) ≠ [] := by
      intro h
      have := congrArg List.length h
      simp only [List.length_take, List.length_nil] at this
      omega
    simp only [update_changelog, hidx]
    rw [show joinNL = joinSep '\n' from rfl]
    rw [splitOnChar_joinSep_middle '\n' (changelogEntry cname nv date entry)
      ((splitOnChar '\n' content.data).take (i + 1))
      ((splitOnChar '\n' content.data).drop (i + 1))
      (fun l hl => hLfree l (List.take_subset _ _ hl))
      (fun l hl => hLfree l (List.drop_subset _ _ hl)) hPne]
    rw [hsplitE]
  · have hT : ∀ c ∈ "# Claude Code Commands Changelog".data, c ≠ '\n' := by decide
    have hs : ("# Claude Code Commands Changelog\n".data : List Char)
        = "# Claude Code Commands Changelog".data ++ ['\n'] := by decide
    have hdata : ("# Claude Code Commands Changelog\n".data : List Char)
        ++ changelogEntry cname nv date entry
        = "# Claude Code Commands Changelog".data
          ++ '\n' :: changelogEntry cname nv date entry := by
      rw [hs, List.append_assoc]
      rfl
    simp only [update_changelog]
    rw [hdata, splitOnChar_nosep_append_sep '\n' _ _ hT, hsplitE]

theorem c7_witness :
    splitOnChar '\n' (update_changelog (some "# Log\nold") "cmd" "1.1.0" "2026-01-01"
        ⟨"1.1.0", "t", ["x"], [], []⟩).data
      = (splitOnChar '\n' "# Log\nold".data).take 1
        ++ entryLines "cmd" "1.1.0" "2026-01-01" ⟨"1.1.0", "t", ["x"], [], []⟩
        ++ (splitOnChar '\n' "# Log\nold".data).drop 1
    ∧ splitOnChar '\n' (update_changelog none "cmd" "1.1.0" "2026-01-01"
        ⟨"1.1.0", "t", ["x"], [], []⟩).data
      = "# Claude Code Commands Changelog".data
          :: entryLines "cmd" "1.1.0" "2026-01-01" ⟨"1.1.0", "t", ["x"], [], []⟩ :=
  c7_changelog_insertion "# Log\nold" "cmd" "1.1.0" "2026-01-01"
    ⟨"1.1.0", "t", ["x"], [], []⟩ 0
    (by decide) (by decide) (by decide) (by decide) (by decide) (by decide) (by decide)

/-! ### Claim C6: utility lemmas -/

theorem isPre_self_append (p t : List Char) : isPre p (p ++ t) = true :=
  (isPre_iff p (p ++ t)).mpr ⟨t, rfl⟩

theorem isPre_cons_false (a b : Char) (p l : List Char) (h : a ≠ b) :
    isPre (a :: p) (b :: l) = false := by
  simp [isPre, h]

theorem isPre_nil_false (a : Char) (p : List Char) : isPre (a :: p) [] = false := rfl

theorem getLast?_mem_list (l : List Char) (a : Char) (h : l.getLast? = some a) : a ∈ l := by
  obtain ⟨l', rfl⟩ := List.getLast?_eq_some_iff.mp h
  simp

theorem suffix_getLast? (s A : List Char) (hs : s <:+ A) (hne : s ≠ []) :
    s.getLast? = A.getLast? := by
  obtain ⟨t, rfl⟩ := hs
  rw [List.getLast?_append_of_ne_nil]
  exact hne

theorem drop_suffix_getLast? (A : List Char) (k : Nat) (hne : A.drop k ≠ []) :
    (A.drop k).getLast? = A.getLast? :=
  suffix_getLast? (A.drop k) A (List.drop_suffix k A) hne

theorem dashfree_noTripleDash (A : List Char) (h : ∀ c ∈ A, c ≠ '-') : noTripleDash A := by
  intro j
  cases hd : A.drop j with
  | nil => rfl
  | cons c cs =>
    have hc : c ∈ A := by
      have : c ∈ A.drop j := by rw [hd]; simp
      exact List.drop_subset j A this
    exact isPre_cons_false '-' c _ cs (fun he => h c hc he.symm)

theorem isPre_eq_true_of_ne_false {p l : List Char} (h : ¬ isPre p l = false) :
    isPre p l = true := by
  revert h
  cases isPre p l <;> simp

theorem noOccur_of_pref (p A B : List Char) (hp : p ≠ []) (hAB : ∃ T, A ++ T = B)
    (h : ∀ j, isPre p (B.drop j) = false) : ∀ j, isPre p (A.drop j) = false := by
  intro j
  obtain ⟨T, rfl⟩ := hAB
  by_contra hcon
  have htrue : isPre p (A.drop j) = true := isPre_eq_true_of_ne_false hcon
  have hne : A.drop j ≠ [] := by
    intro h0
    rw [h0] at htrue
    cases p with
    | nil => exact hp rfl
    | cons a p' => exact Bool.noConfusion htrue
  have hj : j ≤ A.length := by
    by_contra hgt
    exact hne (List.drop_eq_nil_of_le (by omega))
  have hfull : isPre p ((A ++ T).drop j) = true := by
    rw [List.drop_append_eq_append_drop, Nat.sub_eq_zero_of_le hj, List.drop_zero]
    exact isPre_append p (A.drop j) T htrue
  rw [h j] at hfull
  exact Bool.noConfusion hfull

theorem noOccur_of_suffix (p A B : List Char) (hAB : ∃ T, T ++ A = B)
    (h : ∀ j, isPre p (B.drop j) = false) : ∀ j, isPre p (A.drop j) = false := by
  intro j
  obtain ⟨T, rfl⟩ := hAB
  have hdrop : (T ++ A).drop (T.length + j) = A.drop j := by
    rw [List.drop_append_eq_append_drop, List.drop_eq_nil_of_le (by omega)]
    simp
  rw [← hdrop]
  exact h (T.length + j)

theorem containsSub_false_noOccur (p A : List Char) (h : containsSub p A = false) :
    ∀ j, isPre p (A.drop j) = false := by
  intro j
  cases hc : isPre p (A.drop j) with
  | false => rfl
  | true =>
    have : containsSub p A = true := (containsSub_iff p A).mpr ⟨j, hc⟩
    rw [h] at this
    exact Bool.noConfusion this

theorem drop_singleton_getLast? (A : List Char) (j : Nat) (c : Char)
    (hd : A.drop j = [c]) : A.getLast? = some c := by
  rw [← drop_suffix_getLast? A j (by rw [hd]; simp), hd]
  rfl

theorem drop_pair_getLast? (A : List Char) (j : Nat) (c d : Char)
    (hd : A.drop j = [c, d]) : A.getLast? = some d := by
  rw [← drop_suffix_getLast? A j (by rw [hd]; simp), hd]
  rfl

theorem noTripleDash_append_dashfree (A B : List Char) (hA : noTripleDash A)
    (hB : ∀ c ∈ B, c ≠ '-') : noTripleDash (A ++ B) := by
  intro j
  by_contra hcon
  have htrue := isPre_eq_true_of_ne_false hcon
  obtain ⟨t, ht⟩ := (isPre_iff _ _).mp htrue
  rw [List.drop_append_eq_append_drop] at ht
  have hBmem : ∀ k t', B.drop k = '-' :: t' → False := by
    intro k t' hk
    have : '-' ∈ B := List.drop_subset k B (by rw [hk]; simp)
    exact hB '-' this rfl
  cases hd : A.drop j with
  | nil =>
    rw [hd, List.nil_append] at ht
    exact hBmem _ _ (by rw [ht]; rfl)
  | cons c cs =>
    cases cs with
    | nil =>
      rw [hd] at ht
      simp only [List.cons_append, List.nil_append] at ht
      have ht2 := (List.cons.injEq _ _ _ _).mp ht
      exact hBmem _ _ (by rw [ht2.2])
    | cons d ds =>
      cases ds with
      | nil =>
        rw [hd] at ht
        simp only [List.cons_append, List.nil_append] at ht
        have ht2 := (List.cons.injEq _ _ _ _).mp ht
        have ht3 := (List.cons.injEq _ _ _ _).mp ht2.2
        exact hBmem _ _ (by rw [ht3.2])
      | cons e es =>
        rw [hd] at ht
        simp only [List.cons_append] at ht
        have ht2 := (List.cons.injEq _ _ _ _).mp ht
        have ht3 := (List.cons.injEq _ _ _ _).mp ht2.2
        have ht4 := (List.cons.injEq _ _ _ _).mp ht3.2
        have : isPre "---".data (A.drop j) = true := by
          rw [hd, ht2.1, ht3.1, ht4.1]
          exact isPre_self_append ['-', '-', '-'] es
        rw [hA j] at this
        exact Bool.noConfusion this

theorem noTripleDash_append (A B : List Char) (hA : noTripleDash A) (hB : noTripleDash B)
    (hlast : lastNotDash A) : noTripleDash (A ++ B) := by
  intro j
  by_contra hcon
  have htrue := isPre_eq_true_of_ne_false hcon
  obtain ⟨t, ht⟩ := (isPre_iff _ _).mp htrue
  rw [List.drop_append_eq_append_drop] at ht
  cases hd : A.drop j with
  | nil =>
    rw [hd, List.nil_append] at ht
    have : isPre "---".data (B.drop (j - A.length)) = true := by
      rw [ht]
      exact isPre_self_append _ t
    rw [hB (j - A.length)] at this
    exact Bool.noConfusion this
  | cons c cs =>
    cases cs with
    | nil =>
      rw [hd] at ht
      simp only [List.cons_append, List.nil_append] at ht
      have ht2 := (List.cons.injEq _ _ _ _).mp ht
      exact hlast c (drop_singleton_getLast? A j c hd) ht2.1
    | cons d ds =>
      cases ds with
      | nil =>
        rw [hd] at ht
        simp only [List.cons_append, List.nil_append] at ht
        have ht2 := (List.cons.injEq _ _ _ _).mp ht
        have ht3 := (List.cons.injEq _ _ _ _).mp ht2.2
        exact hlast d (drop_pair_getLast? A j c d hd) ht3.1
      | cons e es =>
        rw [hd] at ht
        simp only [List.cons_append] at ht
        have ht2 := (List.cons.injEq _ _ _ _).mp ht
        have ht3 := (List.cons.injEq _ _ _ _).mp ht2.2
        have ht4 := (List.cons.injEq _ _ _ _).mp ht3.2
        have : isPre "---".data (A.drop j) = true := by
          rw [hd, ht2.1, ht3.1, ht4.1]
          exact isPre_self_append ['-', '-', '-'] es
        rw [hA j] at this
        exact Bool.noConfusion this

theorem verKey_length : verKey.length = 8 := rfl

theorem drop_verKey (Z : List Char) : (verKey ++ Z).drop 8 = Z := by
  have h := List.drop_left verKey Z
  rwa [verKey_length] at h

theorem digdot_not_ws (c : Char) (h : isDigDot c = true) : isWs c = false := by
  cases hw : isWs c with
  | false => rfl
  | true =>
    exfalso
    have hw2 : c = ' ' ∨ c = '\t' ∨ c = '\n' ∨ c = '\r' ∨ c = '\x0b' ∨ c = '\x0c' := by
      simpa [isWs, or_assoc] using hw
    rcases hw2 with rfl | rfl | rfl | rfl | rfl | rfl <;> exact absurd h (by decide)

theorem digdot_ne_dash (c : Char) (h : isDigDot c = true) : c ≠ '-' := by
  intro he
  subst he
  exact absurd h (by decide)

theorem head?_dropWhile (P : Char → Bool) :
    ∀ (l : List Char) (c : Char), (List.dropWhile P l).head? = some c → P c = false := by
  intro l
  induction l with
  | nil => intro c h; simp [List.dropWhile] at h
  | cons x l' ih =>
    intro c h
    rw [List.dropWhile_cons] at h
    by_cases hx : P x = true
    · rw [if_pos hx] at h
      exact ih c h
    · rw [if_neg hx] at h
      simp only [List.head?_cons, Option.some.injEq] at h
      subst h
      revert hx
      cases P x <;> simp

theorem takeWhile_all (P : Char → Bool) :
    ∀ l : List Char, (List.takeWhile P l).all P = true := by
  intro l
  induction l with
  | nil => rfl
  | cons x l' ih =>
    rw [List.takeWhile_cons]
    by_cases hx : P x = true
    · rw [if_pos hx]
      simp [hx, ih]
    · rw [if_neg hx]
      rfl

theorem dropWhile_ne_nil_of_mem (P : Char → Bool) (l : List Char) (c : Char)
    (hc : c ∈ l) (hP : P c = false) : List.dropWhile P l ≠ [] := by
  induction l with
  | nil => simp at hc
  | cons x l' ih =>
    rw [List.dropWhile_cons]
    by_cases hx : P x = true
    · rw [if_pos hx]
      rcases List.mem_cons.mp hc with rfl | hc'
      · rw [hx] at hP; exact Bool.noConfusion hP
      · exact ih hc'
    · rw [if_neg hx]
      simp

theorem isPre_append_left (p A z : List Char) (hlen : p.length ≤ A.length) :
    isPre p (A ++ z) = isPre p A := by
  cases hA : isPre p A with
  | true => exact isPre_append p A z hA
  | false =>
    by_contra hcon
    have htrue := isPre_eq_true_of_ne_false (fun h => hcon h)
    have h1 := isPre_take p (A ++ z) htrue
    rw [List.take_append_of_le_length hlen] at h1
    rw [isPre_of_take p A h1] at hA
    exact Bool.noConfusion hA

theorem takeWhile_all_append (P : Char → Bool) (v X : List Char) (hv : v.all P = true)
    (hX : ∀ c, X.head? = some c → P c = false) :
    (v ++ X).takeWhile P = v ∧ (v ++ X).dropWhile P = X := by
  induction v with
  | nil =>
    simp only [List.nil_append]
    cases X with
    | nil => exact ⟨rfl, rfl⟩
    | cons x X' =>
      have hx := hX x rfl
      exact ⟨by simp [List.takeWhile_cons, hx], by simp [List.dropWhile_cons, hx]⟩
  | cons c v' ih =>
    simp only [List.all_cons, Bool.and_eq_true] at hv
    obtain ⟨h1, h2⟩ := ih hv.2
    refine ⟨?_, ?_⟩
    · simp [List.takeWhile_cons, hv.1, h1]
    · simp [List.dropWhile_cons, hv.1, h2]

theorem matchVer_at_repl (v X : List Char) (hv1 : v ≠ []) (hv2 : v.all isDigDot = true)
    (hX : ∀ c, X.head? = some c → isDigDot c = false) :
    matchVer ("version: ".data ++ v ++ X) = some (v, X) := by
  have hform : "version: ".data ++ v ++ X = verKey ++ (' ' :: (v ++ X)) := rfl
  rw [hform]
  have hdropws : (' ' :: (v ++ X)).dropWhile isWs = v ++ X := by
    rw [List.dropWhile_cons, if_pos (by decide)]
    cases v with
    | nil => exact absurd rfl hv1
    | cons c v' =>
      simp only [List.all_cons, Bool.and_eq_true] at hv2
      rw [List.cons_append, List.dropWhile_cons, if_neg]
      rw [digdot_not_ws c hv2.1]
      simp
  obtain ⟨htake, hdrop⟩ := takeWhile_all_append isDigDot v X hv2 hX
  rw [matchVer, if_pos (isPre_self_append verKey _), drop_verKey, hdropws, htake, hdrop,
    if_neg]
  cases v with
  | nil => exact absurd rfl hv1
  | cons c v' => simp

theorem matchVer_some_facts (cs g rest : List Char) (h : matchVer cs = some (g, rest)) :
    isPre verKey cs = true ∧ g ≠ [] ∧ g.all isDigDot = true
    ∧ (∀ c, rest.head? = some c → isDigDot c = false)
    ∧ rest.length < cs.length ∧ rest <:+ cs := by
  rw [matchVer] at h
  by_cases hp : isPre verKey cs = true
  · rw [if_pos hp] at h
    by_cases he : (((cs.drop 8).dropWhile isWs).takeWhile isDigDot).isEmpty = true
    · rw [if_pos he] at h
      exact Option.noConfusion h
    · rw [if_neg he] at h
      injection h with h
      have hg : g = ((cs.drop 8).dropWhile isWs).takeWhile isDigDot :=
        ((Prod.mk.injEq _ _ _ _).mp h).1.symm
      have hr : rest = ((cs.drop 8).dropWhile isWs).dropWhile isDigDot :=
        ((Prod.mk.injEq _ _ _ _).mp h).2.symm
      have hcs8 : 8 ≤ cs.length := by
        have := isPre_length_le verKey cs hp
        rwa [verKey_length] at this
      have hsuffix : rest <:+ cs := by
        rw [hr]
        exact ((List.dropWhile_suffix isDigDot).trans
          (List.dropWhile_suffix isWs)).trans (List.drop_suffix 8 cs)
      refine ⟨hp, ?_, ?_, ?_, ?_, hsuffix⟩
      · rw [hg]
        intro hnil
        rw [hnil] at he
        exact he rfl
      · rw [hg]
        exact takeWhile_all isDigDot _
      · intro c hc
        rw [hr] at hc
        exact head?_dropWhile isDigDot _ c hc
      · have h1 : rest.length ≤ ((cs.drop 8).dropWhile isWs).length :=
          List.IsSuffix.length_le (hr ▸ List.dropWhile_suffix isDigDot)
        have h2 : ((cs.drop 8).dropWhile isWs).length ≤ (cs.drop 8).length :=
          List.IsSuffix.length_le (List.dropWhile_suffix isWs)
        have h3 : (cs.drop 8).length = cs.length - 8 := List.length_drop 8 cs
        omega
  · rw [if_neg hp] at h
    exact Option.noConfusion h

theorem matchVer_isSome_append (A : List Char) (h8 : 8 < A.length)
    (hne : ∃ c, c ∈ A.drop 8 ∧ isWs c = false) (z : List Char) :
    (matchVer (A ++ z)).isSome =
      (isPre verKey A &&
        match (A.drop 8).dropWhile isWs with
        | c :: _ => isDigDot c
        | [] => false) := by
  have hpre : isPre verKey (A ++ z) = isPre verKey A :=
    isPre_append_left verKey A z (by rw [verKey_length]; omega)
  rw [matchVer, hpre]
  cases hp : isPre verKey A with
  | false => simp
  | true =>
    have hdrop8 : (A ++ z).drop 8 = A.drop 8 ++ z := by
      rw [List.drop_append_eq_append_drop, Nat.sub_eq_zero_of_le (by omega), List.drop_zero]
    obtain ⟨c0, hc0mem, hc0ws⟩ := hne
    have hu : (A.drop 8).dropWhile isWs ≠ [] :=
      dropWhile_ne_nil_of_mem isWs (A.drop 8) c0 hc0mem hc0ws
    have hdw : (A.drop 8 ++ z).dropWhile isWs = (A.drop 8).dropWhile isWs ++ z := by
      rw [List.dropWhile_append]
      rw [if_neg]
      intro hcon
      exact hu (List.isEmpty_iff.mp hcon)
    rw [hdrop8, hdw]
    cases hu2 : (A.drop 8).dropWhile isWs with
    | nil => exact absurd hu2 hu
    | cons c u' =>
      rw [List.cons_append, List.takeWhile_cons]
      cases hdc : isDigDot c with
      | false => simp [hdc]
      | true => simp [hdc]

theorem matchVer_isSome_congr (y z1 z2 : List Char) (hy : y ≠ []) :
    (matchVer ((y ++ verKey) ++ z1)).isSome = (matchVer ((y ++ verKey) ++ z2)).isSome := by
  have h8 : 8 < (y ++ verKey).length := by
    rw [List.length_append, verKey_length]
    have := List.length_pos.mpr hy
    omega
  have hlast : (y ++ verKey).getLast? = some ':' := by
    rw [List.getLast?_append_of_ne_nil] <;> decide
  have hdropne : (y ++ verKey).drop 8 ≠ [] := by
    intro hcon
    have := congrArg List.length hcon
    simp only [List.length_drop, List.length_nil] at this
    omega
  have hmem : (':' : Char) ∈ (y ++ verKey).drop 8 := by
    apply getLast?_mem_list
    rw [drop_suffix_getLast? (y ++ verKey) 8 hdropne]
    exact hlast
  have hne : ∃ c, c ∈ (y ++ verKey).drop 8 ∧ isWs c = false := ⟨':', hmem, by decide⟩
  rw [matchVer_isSome_append (y ++ verKey) h8 hne z1,
    matchVer_isSome_append (y ++ verKey) h8 hne z2]

theorem matchVer_nil : matchVer ([] : List Char) = none := rfl

theorem findVer_of_matchVer (cs g r : List Char) (h : matchVer cs = some (g, r)) :
    findVer cs = some g := by
  cases cs with
  | nil => rw [matchVer_nil] at h; exact Option.noConfusion h
  | cons c cs' => rw [findVer, h]

theorem findVer_skip (A B : List Char)
    (h : ∀ s, s ≠ [] → s <:+ A → matchVer (s ++ B) = none) :
    findVer (A ++ B) = findVer B := by
  induction A with
  | nil => rfl
  | cons a A' ih =>
    have hm := h (a :: A') (by simp) (List.suffix_refl _)
    rw [List.cons_append] at hm
    rw [List.cons_append, findVer, hm]
    exact ih (fun s hs hsuf => h s hs (hsuf.trans (List.suffix_cons a A')))

theorem firstMatchSplit_decomp :
    ∀ (cs p r : List Char), firstMatchSplit cs = some (p, r) →
      ∃ t g, cs = p ++ t ∧ matchVer t = some (g, r) := by
  intro cs
  induction cs with
  | nil => intro p r h; exact Option.noConfusion h
  | cons c cs' ih =>
    intro p r h
    rw [firstMatchSplit] at h
    cases hm : matchVer (c :: cs') with
    | some gr =>
      rw [hm] at h
      obtain ⟨g0, r0⟩ := gr
      simp only [Option.some.injEq, Prod.mk.injEq] at h
      obtain ⟨hp, hr⟩ := h
      subst hp
      subst hr
      exact ⟨c :: cs', g0, rfl, hm⟩
    | none =>
      rw [hm] at h
      cases hf : firstMatchSplit cs' with
      | some pr =>
        rw [hf] at h
        obtain ⟨p2, r2⟩ := pr
        simp only [Option.some.injEq, Prod.mk.injEq] at h
        obtain ⟨hp, hr⟩ := h
        subst hp
        subst hr
        obtain ⟨t, g, hcs, hm2⟩ := ih p2 r2 hf
        exact ⟨t, g, by rw [hcs]; rfl, hm2⟩
      | none =>
        rw [hf] at h
        exact Option.noConfusion h

theorem firstMatchSplit_isSome_of_findVer :
    ∀ (cs g : List Char), findVer cs = some g → (firstMatchSplit cs).isSome = true := by
  intro cs
  induction cs with
  | nil => intro g h; exact Option.noConfusion h
  | cons c cs' ih =>
    intro g h
    rw [findVer] at h
    rw [firstMatchSplit]
    cases hm : matchVer (c :: cs') with
    | some gr => simp
    | none =>
      rw [hm] at h
      cases hf : firstMatchSplit cs' with
      | some pr => simp
      | none =>
        have := ih g h
        rw [hf] at this
        exact Bool.noConfusion this

theorem containsSub_verKey_of_fms (cs p r : List Char)
    (h : firstMatchSplit cs = some (p, r)) : containsSub verKey cs = true := by
  obtain ⟨t, g, hcs, hmt⟩ := firstMatchSplit_decomp cs p r h
  have hpre := (matchVer_some_facts t g r hmt).1
  refine (containsSub_iff verKey cs).mpr ⟨p.length, ?_⟩
  rw [hcs, List.drop_left]
  exact hpre

theorem matchVer_rest_length (cs g rest : List Char) (h : matchVer cs = some (g, rest)) :
    rest.length < cs.length :=
  (matchVer_some_facts cs g rest h).2.2.2.2.1

theorem subVersionAux_fuel (v : String) :
    ∀ f1 f2 cs, cs.length ≤ f1 → cs.length ≤ f2 →
      subVersionAux v f1 cs = subVersionAux v f2 cs := by
  intro f1
  induction f1 with
  | zero =>
    intro f2 cs h1 _
    have hnil : cs = [] := List.length_eq_zero.mp (Nat.le_zero.mp h1)
    subst hnil
    cases f2 <;> rfl
  | succ f1' ih =>
    intro f2 cs h1 h2
    cases cs with
    | nil => cases f2 <;> rfl
    | cons c cs' =>
      cases f2 with
      | zero => simp at h2
      | succ f2' =>
        simp only [List.length_cons] at h1 h2
        simp only [subVersionAux]
        cases hm : matchVer (c :: cs') with
        | some gr =>
          obtain ⟨g, rest⟩ := gr
          have hlen := matchVer_rest_length (c :: cs') g rest hm
          simp only [List.length_cons] at hlen
          show vRepl v ++ subVersionAux v f1' rest = vRepl v ++ subVersionAux v f2' rest
          rw [ih f2' rest (by omega) (by omega)]
        | none =>
          show c :: subVersionAux v f1' cs' = c :: subVersionAux v f2' cs'
          rw [ih f2' cs' (by omega) (by omega)]

theorem subVersion_nil (v : String) : subVersion v [] = [] := rfl

theorem subVersion_cons_match (v : String) (c : Char) (cs g rest : List Char)
    (h : matchVer (c :: cs) = some (g, rest)) :
    subVersion v (c :: cs) = vRepl v ++ subVersion v rest := by
  have hlen := matchVer_rest_length (c :: cs) g rest h
  simp only [List.length_cons] at hlen
  rw [subVersion, subVersion]
  simp only [List.length_cons, subVersionAux]
  rw [h]
  show vRepl v ++ subVersionAux v cs.length rest = vRepl v ++ subVersionAux v rest.length rest
  rw [subVersionAux_fuel v cs.length rest.length rest (by omega) (Nat.le_refl _)]

theorem subVersion_cons_nomatch (v : String) (c : Char) (cs : List Char)
    (h : matchVer (c :: cs) = none) :
    subVersion v (c :: cs) = c :: subVersion v cs := by
  rw [subVersion, subVersion]
  simp only [List.length_cons, subVersionAux]
  rw [h]

theorem vRepl_ne_nil (v : String) : vRepl v ≠ [] := by
  rw [vRepl]
  simp

theorem subVersion_ne_nil (v : String) (cs : List Char) (h : cs ≠ []) :
    subVersion v cs ≠ [] := by
  cases cs with
  | nil => exact absurd rfl h
  | cons c cs' =>
    cases hm : matchVer (c :: cs') with
    | some gr =>
      obtain ⟨g, rest⟩ := gr
      rw [subVersion_cons_match v c cs' g rest hm]
      intro hcon
      exact vRepl_ne_nil v (List.append_eq_nil.mp hcon).1
    | none =>
      rw [subVersion_cons_nomatch v c cs' hm]
      simp

theorem subVersion_fms_none (v : String) :
    ∀ cs, firstMatchSplit cs = none → subVersion v cs = cs := by
  intro cs
  induction cs with
  | nil => intro _; rfl
  | cons c cs' ih =>
    intro h
    rw [firstMatchSplit] at h
    cases hm : matchVer (c :: cs') with
    | some gr => rw [hm] at h; exact Option.noConfusion h
    | none =>
      rw [hm] at h
      cases hf : firstMatchSplit cs' with
      | some pr => rw [hf] at h; exact Option.noConfusion h
      | none =>
        rw [subVersion_cons_nomatch v c cs' hm, ih hf]

theorem subVersion_fms_some (v : String) :
    ∀ cs p r, firstMatchSplit cs = some (p, r) →
      subVersion v cs = p ++ vRepl v ++ subVersion v r := by
  intro cs
  induction cs with
  | nil => intro p r h; exact Option.noConfusion h
  | cons c cs' ih =>
    intro p r h
    rw [firstMatchSplit] at h
    cases hm : matchVer (c :: cs') with
    | some gr =>
      rw [hm] at h
      obtain ⟨g0, r0⟩ := gr
      simp only [Option.some.injEq, Prod.mk.injEq] at h
      obtain ⟨hp, hr⟩ := h
      subst hp
      rw [subVersion_cons_match v c cs' g0 r0 hm, hr]
      rfl
    | none =>
      rw [hm] at h
      cases hf : firstMatchSplit cs' with
      | some pr =>
        rw [hf] at h
        obtain ⟨p2, r2⟩ := pr
        simp only [Option.some.injEq, Prod.mk.injEq] at h
        obtain ⟨hp, hr⟩ := h
        subst hp
        rw [subVersion_cons_nomatch v c cs' hm, ih p2 r2 hf, hr]
        rfl
      | none =>
        rw [hf] at h
        exact Option.noConfusion h

theorem subVersion_head (v : String) (r : List Char)
    (h : ∀ c, r.head? = some c → isDigDot c = false) :
    ∀ c, (subVersion v r).head? = some c → isDigDot c = false := by
  cases r with
  | nil =>
    intro c hc
    rw [subVersion_nil] at hc
    exact Option.noConfusion hc
  | cons c0 r' =>
    intro c hc
    cases hm : matchVer (c0 :: r') with
    | some gr =>
      obtain ⟨g, rest⟩ := gr
      rw [subVersion_cons_match v c0 r' g rest hm] at hc
      have hv : (vRepl v ++ subVersion v rest).head? = some 'v' := rfl
      rw [hv] at hc
      injection hc with hc
      subst hc
      decide
    | none =>
      rw [subVersion_cons_nomatch v c0 r' hm] at hc
      simp only [List.head?_cons, Option.some.injEq] at hc
      subst hc
      exact h c0 rfl

theorem findVer_after_first (v X : List Char) (hv1 : v ≠ []) (hv2 : v.all isDigDot = true)
    (hX : ∀ c, X.head? = some c → isDigDot c = false) :
    ∀ cs p r, firstMatchSplit cs = some (p, r) →
      findVer (p ++ ("version: ".data ++ v) ++ X) = some v := by
  intro cs
  induction cs with
  | nil => intro p r h; exact Option.noConfusion h
  | cons c cs' ih =>
    intro p r h
    rw [firstMatchSplit] at h
    cases hm : matchVer (c :: cs') with
    | some gr =>
      rw [hm] at h
      obtain ⟨g0, r0⟩ := gr
      simp only [Option.some.injEq, Prod.mk.injEq] at h
      obtain ⟨hp, hr⟩ := h
      subst hp
      simp only [List.nil_append]
      rw [List.append_assoc]
      exact findVer_of_matchVer _ v X (matchVer_at_repl v X hv1 hv2 hX)
    | none =>
      rw [hm] at h
      cases hf : firstMatchSplit cs' with
      | none => rw [hf] at h; exact Option.noConfusion h
      | some pr =>
        rw [hf] at h
        obtain ⟨p2, r2⟩ := pr
        simp only [Option.some.injEq, Prod.mk.injEq] at h
        obtain ⟨hp, hr⟩ := h
        subst hp
        obtain ⟨t, g, hcs, hmt⟩ := firstMatchSplit_decomp cs' p2 r2 hf
        obtain ⟨q, hq⟩ := (isPre_iff verKey t).mp (matchVer_some_facts t g r2 hmt).1
        have hcongr := matchVer_isSome_congr (c :: p2) q (' ' :: (v ++ X)) (by simp)
        have hz1 : ((c :: p2) ++ verKey) ++ q = c :: cs' := by
          rw [hcs, hq]
          simp
        have hz2 : ((c :: p2) ++ verKey) ++ (' ' :: (v ++ X))
            = c :: (p2 ++ ("version: ".data ++ v) ++ X) := by
          have hvs : "version: ".data = verKey ++ [' '] := rfl
          rw [hvs]
          simp
        rw [hz1, hz2, hm] at hcongr
        have hnone : matchVer (c :: (p2 ++ ("version: ".data ++ v) ++ X)) = none := by
          cases hmm : matchVer (c :: (p2 ++ ("version: ".data ++ v) ++ X)) with
          | none => rfl
          | some w =>
            rw [hmm] at hcongr
            simp at hcongr
        have hshape : (c :: p2) ++ ("version: ".data ++ v) ++ X
            = c :: (p2 ++ ("version: ".data ++ v) ++ X) := by simp
        rw [hshape, findVer, hnone]
        exact ih p2 r2 hf

theorem vRepl_dashfree (v : String) (hv : ∀ c ∈ v.data, c ≠ '-') :
    ∀ c ∈ vRepl v, c ≠ '-' := by
  intro c hc
  rw [vRepl] at hc
  rcases List.mem_append.mp hc with h | h
  · intro he
    subst he
    revert h
    decide
  · exact hv c h

theorem lastNotDash_of_dashfree (A : List Char) (h : ∀ c ∈ A, c ≠ '-') : lastNotDash A :=
  fun c hc => h c (getLast?_mem_list A c hc)

theorem subVersion_safe (v : String) (hv : ∀ c ∈ v.data, c ≠ '-') :
    ∀ n cs, cs.length ≤ n → noTripleDash cs → lastNotDash cs →
      noTripleDash (subVersion v cs) ∧ lastNotDash (subVersion v cs) := by
  intro n
  induction n with
  | zero =>
    intro cs hlen h1 h2
    have hnil : cs = [] := List.length_eq_zero.mp (Nat.le_zero.mp hlen)
    subst hnil
    exact ⟨h1, h2⟩
  | succ n ih =>
    intro cs hlen h1 h2
    cases hf : firstMatchSplit cs with
    | none =>
      rw [subVersion_fms_none v cs hf]
      exact ⟨h1, h2⟩
    | some pr =>
      obtain ⟨p, r⟩ := pr
      obtain ⟨t, g, hcs, hmt⟩ := firstMatchSplit_decomp cs p r hf
      have facts := matchVer_some_facts t g r hmt
      have hrsuffix : r <:+ cs := facts.2.2.2.2.2.trans ⟨p, hcs.symm⟩
      have hrlen : r.length ≤ n := by
        have ha : r.length < t.length := facts.2.2.2.2.1
        have hb : t.length ≤ cs.length := by
          rw [hcs]
          simp
        omega
      have hrNo3 : noTripleDash r := noOccur_of_suffix _ r cs hrsuffix h1
      have hrLast : lastNotDash r := by
        intro c hc
        have hrne : r ≠ [] := by
          intro h0
          rw [h0] at hc
          exact Option.noConfusion hc
        rw [suffix_getLast? r cs hrsuffix hrne] at hc
        exact h2 c hc
      have hpNo3 : noTripleDash p :=
        noOccur_of_pref _ p cs (by decide) ⟨t, hcs.symm⟩ h1
      obtain ⟨hsubNo3, hsubLast⟩ := ih r hrlen hrNo3 hrLast
      have hvr := vRepl_dashfree v hv
      have hpv : noTripleDash (p ++ vRepl v) :=
        noTripleDash_append_dashfree p (vRepl v) hpNo3 hvr
      have hpvLast : lastNotDash (p ++ vRepl v) := by
        intro c hc
        rw [List.getLast?_append_of_ne_nil _ (vRepl_ne_nil v)] at hc
        exact hvr c (getLast?_mem_list _ c hc)
      rw [subVersion_fms_some v cs p r hf]
      constructor
      · exact noTripleDash_append (p ++ vRepl v) (subVersion v r) hpv hsubNo3 hpvLast
      · intro c hc
        by_cases hsr : subVersion v r = []
        · rw [hsr, List.append_nil] at hc
          exact hpvLast c hc
        · rw [List.getLast?_append_of_ne_nil _ hsr] at hc
          exact hsubLast c hc

theorem findSub_cons_pos (pat : List Char) (c : Char) (cs : List Char)
    (h : isPre pat (c :: cs) = true) : findSub pat (c :: cs) = some 0 := by
  simp [findSub, h]

theorem findSub_cons_neg_some (pat : List Char) (c : Char) (cs : List Char) (i : Nat)
    (h : isPre pat (c :: cs) = false) (hf : findSub pat cs = some i) :
    findSub pat (c :: cs) = some (i + 1) := by
  simp [findSub, h, hf]

theorem isPre_ddd_extend (a : Char) (A' X : List Char)
    (h1 : isPre "---".data (a :: A') = false)
    (hlast : lastNotDash (a :: A')) :
    isPre "---".data ((a :: A') ++ X) = false := by
  cases htrue : isPre "---".data ((a :: A') ++ X) with
  | false => rfl
  | true =>
    exfalso
    obtain ⟨t, ht⟩ := (isPre_iff _ _).mp htrue
    cases A' with
    | nil =>
      have ha : a ≠ '-' := hlast a rfl
      simp only [List.cons_append, List.nil_append] at ht
      injection ht with e1 _
      exact ha e1
    | cons b A'' =>
      cases A'' with
      | nil =>
        have hb : b ≠ '-' := hlast b rfl
        simp only [List.cons_append, List.nil_append] at ht
        injection ht with e1 ht2
        injection ht2 with e2 _
        exact hb e2
      | cons cc B3 =>
        simp only [List.cons_append] at ht
        injection ht with e1 ht2
        injection ht2 with e2 ht3
        injection ht3 with e3 _
        subst e1
        subst e2
        subst e3
        rw [(isPre_iff "---".data ('-' :: ('-' :: ('-' :: B3)))).mpr ⟨B3, rfl⟩] at h1
        exact Bool.noConfusion h1

theorem findSub_at (R : List Char) :
    ∀ A, noTripleDash A → lastNotDash A →
      findSub "---".data (A ++ "---".data ++ R) = some A.length := by
  intro A
  induction A with
  | nil =>
    intro _ _
    show findSub "---".data ('-' :: ('-' :: ('-' :: R))) = some 0
    exact findSub_cons_pos _ _ _ ((isPre_iff _ _).mpr ⟨R, rfl⟩)
  | cons a A' ih =>
    intro h1 h2
    have hA'1 : noTripleDash A' := fun j => h1 (j + 1)
    have hA'2 : lastNotDash A' := by
      intro c hc
      apply h2 c
      cases A' with
      | nil => exact Option.noConfusion hc
      | cons b B =>
        rw [List.getLast?_cons_cons]
        exact hc
    have hfalse := isPre_ddd_extend a A' ("---".data ++ R) (h1 0) h2
    have ihh := ih hA'1 hA'2
    have hgoal : ((a :: A') ++ "---".data) ++ R = a :: (A' ++ ("---".data ++ R)) := by
      simp
    rw [hgoal, List.length_cons]
    refine findSub_cons_neg_some _ _ _ _ hfalse ?_
    rw [← List.append_assoc]
    exact ihh

theorem parsePart_facts (cs : List Char) (n : Nat) (h : parsePart cs = some n) :
    cs ≠ [] ∧ (∀ c ∈ cs, isDigitCh c = true) := by
  rw [parsePart] at h
  by_cases h1 : cs.isEmpty = true
  · rw [if_pos h1] at h
    exact Option.noConfusion h
  · rw [if_neg h1] at h
    by_cases h2 : cs.all isDigitCh = true
    · refine ⟨by simpa [List.isEmpty_iff] using h1, ?_⟩
      intro c hc
      exact List.all_eq_true.mp h2 c hc
    · rw [if_neg h2] at h
      exact Option.noConfusion h

theorem isDigDot_of_digit (c : Char) (h : isDigitCh c = true) : isDigDot c = true := by
  rw [isDigDot, h]
  rfl

theorem isDigDot_ne_dash (c : Char) (h : isDigDot c = true) : c ≠ '-' := by
  intro he
  subst he
  revert h
  decide

theorem isDigDot_ne_nl (c : Char) (h : isDigDot c = true) : c ≠ '\n' := by
  intro he
  subst he
  revert h
  decide

theorem parse_version_chars (s : String) (t : Nat × Nat × Nat)
    (h : parse_version s = some t) :
    s.data ≠ [] ∧ (∀ c ∈ s.data, isDigDot c = true) := by
  rw [parse_version] at h
  rcases hs : splitOnChar '.' s.data with _ | ⟨a, _ | ⟨b, _ | ⟨c, _ | ⟨d, l⟩⟩⟩⟩ <;>
    rw [hs] at h
  · exact Option.noConfusion h
  · exact Option.noConfusion h
  · exact Option.noConfusion h
  swap
  · exact Option.noConfusion h
  have h2 : (match parsePart a, parsePart b, parsePart c with
      | some x, some y, some z => some ((x, y, z) : Nat × Nat × Nat)
      | _, _, _ => none) = some t := h
  cases hpa : parsePart a with
  | none => rw [hpa] at h2; exact Option.noConfusion h2
  | some x =>
  cases hpb : parsePart b with
  | none => rw [hpa, hpb] at h2; exact Option.noConfusion h2
  | some y =>
  cases hpc : parsePart c with
  | none => rw [hpa, hpb, hpc] at h2; exact Option.noConfusion h2
  | some z =>
  have hj : a ++ '.' :: (b ++ '.' :: c) = s.data := by
    have hjs := joinSep_splitOnChar '.' s.data
    rw [hs] at hjs
    exact hjs
  have hfa := parsePart_facts a x hpa
  have hfb := parsePart_facts b y hpb
  have hfc := parsePart_facts c z hpc
  constructor
  · intro h0
    rw [h0] at hj
    rcases List.append_eq_nil.mp hj with ⟨_, h3⟩
    exact List.noConfusion h3
  · intro ch hch
    rw [← hj] at hch
    rcases List.mem_append.mp hch with hm | hm
    · exact isDigDot_of_digit ch (hfa.2 ch hm)
    rcases List.mem_cons.mp hm with he | hm2
    · subst he
      decide
    rcases List.mem_append.mp hm2 with hm3 | hm4
    · exact isDigDot_of_digit ch (hfb.2 ch hm3)
    rcases List.mem_cons.mp hm4 with he | hm5
    · subst he
      decide
    · exact isDigDot_of_digit ch (hfc.2 ch hm5)

theorem matchVer_none_of_not_isPre (cs : List Char) (h : isPre verKey cs = false) :
    matchVer cs = none := by
  rw [matchVer, h]
  rfl

theorem isPre_verKey_nl_false (s' B0 : List Char) (h : isPre verKey s' = false) :
    isPre verKey (s' ++ '\n' :: B0) = false := by
  cases hp : isPre verKey (s' ++ '\n' :: B0) with
  | false => rfl
  | true =>
    exfalso
    obtain ⟨t, ht⟩ := (isPre_iff _ _).mp hp
    by_cases hlen : 8 ≤ s'.length
    · have htake : s'.take 8 = verKey := by
        have h1 : (s' ++ '\n' :: B0).take 8 = s'.take 8 := List.take_append_of_le_length hlen
        have h2 : (verKey ++ t).take 8 = verKey := by
          have h3 : verKey.length = 8 := rfl
          rw [← h3, List.take_left]
        rw [ht, h2] at h1
        exact h1.symm
      rw [isPre_of_take verKey s' htake] at h
      exact Bool.noConfusion h
    · push_neg at hlen
      have hd : '\n' :: B0 = verKey.drop s'.length ++ t := by
        have h1 : (s' ++ '\n' :: B0).drop s'.length = '\n' :: B0 := List.drop_left _ _
        have h2 : (verKey ++ t).drop s'.length = verKey.drop s'.length ++ t :=
          List.drop_append_of_le_length (by rw [show verKey.length = 8 from rfl]; omega)
        rw [ht, h2] at h1
        exact h1.symm
      have hne : verKey.drop s'.length ≠ [] := by
        intro h0
        have h4 := congrArg List.length h0
        rw [List.length_drop] at h4
        have h5 : verKey.length = 8 := rfl
        rw [h5] at h4
        simp at h4
        omega
      obtain ⟨c, rest, hcr⟩ := List.exists_cons_of_ne_nil hne
      rw [hcr, List.cons_append] at hd
      injection hd with h1 _
      have hcmem : c ∈ verKey := List.drop_subset s'.length verKey (by rw [hcr]; simp)
      rw [← h1] at hcmem
      revert hcmem
      decide

theorem rstrip_pref (cs : List Char) : ∃ Q, rstrip cs ++ Q = cs := by
  rw [rstrip]
  obtain ⟨T, hT⟩ := List.dropWhile_suffix isWs (l := cs.reverse)
  exact ⟨T.reverse, by rw [← List.reverse_append, hT, List.reverse_reverse]⟩

theorem suffix_concat_cases (s P : List Char) (x : Char) (hs : s <:+ P ++ [x]) (hne : s ≠ []) :
    ∃ s', s = s' ++ [x] ∧ s' <:+ P := by
  obtain ⟨T, hT⟩ := hs
  have hlast : s.getLast? = some x := by
    rw [suffix_getLast? s (P ++ [x]) ⟨T, hT⟩ hne, List.getLast?_concat]
  obtain ⟨s', hs'⟩ := List.getLast?_eq_some_iff.mp hlast
  refine ⟨s', hs', ⟨T, ?_⟩⟩
  have h2 : (T ++ s') ++ [x] = P ++ [x] := by rw [List.append_assoc, ← hs', hT]
  have h3 := congrArg List.dropLast h2
  rwa [List.dropLast_concat, List.dropLast_concat] at h3

theorem findSub_min (pat : List Char) :
    ∀ (L : List Char) (e : Nat), findSub pat L = some e →
      isPre pat (L.drop e) = true ∧ ∀ j, j < e → isPre pat (L.drop j) = false := by
  intro L
  induction L with
  | nil =>
    intro e h
    rw [findSub] at h
    by_cases hp : isPre pat [] = true
    · rw [if_pos hp] at h
      injection h with h
      subst h
      exact ⟨hp, fun j hj => absurd hj (by omega)⟩
    · rw [if_neg hp] at h
      exact Option.noConfusion h
  | cons c cs ih =>
    intro e h
    rw [findSub] at h
    by_cases hp : isPre pat (c :: cs) = true
    · rw [if_pos hp] at h
      injection h with h
      subst h
      exact ⟨hp, fun j hj => absurd hj (by omega)⟩
    · rw [if_neg hp] at h
      cases hf : findSub pat cs with
      | none => rw [hf] at h; exact Option.noConfusion h
      | some i =>
        rw [hf] at h
        injection h with h
        subst h
        obtain ⟨h1, h2⟩ := ih i hf
        refine ⟨h1, ?_⟩
        intro j hj
        cases j with
        | zero =>
          show isPre pat (c :: cs) = false
          exact Bool.eq_false_iff.mpr hp
        | succ j => exact h2 j (by omega)

theorem frontmatter_safe (L : List Char) (e : Nat) (h : findSub "---".data L = some e) :
    noTripleDash (L.take e) ∧ lastNotDash (L.take e)
      ∧ L = (L.take e ++ "---".data) ++ L.drop (e + 3) := by
  obtain ⟨h1, h2⟩ := findSub_min "---".data L e h
  obtain ⟨T, hT⟩ := (isPre_iff _ _).mp h1
  have hlenT := congrArg List.length hT
  rw [List.length_drop] at hlenT
  have h33 : ("---".data ++ T).length = 3 + T.length := by
    rw [List.length_append]
    rfl
  rw [h33] at hlenT
  have he3 : e + 3 ≤ L.length := by omega
  have hTval : T = L.drop (e + 3) := by
    have hd := congrArg (List.drop 3) hT
    rw [List.drop_drop] at hd
    have hdl : ("---".data ++ T).drop 3 = T := List.drop_left "---".data T
    rw [hdl] at hd
    rw [← hd]
  refine ⟨?_, ?_, ?_⟩
  · intro j
    by_cases hj : j < e
    · cases hpre : isPre "---".data ((L.take e).drop j) with
      | false => rfl
      | true =>
        exfalso
        rw [List.drop_take e j L] at hpre
        have hfull : isPre "---".data (L.drop j) = true := by
          conv_lhs => rw [← List.take_append_drop (e - j) (L.drop j)]
          exact isPre_append _ _ _ hpre
        rw [h2 j hj] at hfull
        exact Bool.noConfusion hfull
    · have hnil : (L.take e).drop j = [] :=
        List.drop_eq_nil_of_le (le_trans (List.length_take_le e L) (by omega))
      rw [hnil]
      rfl
  · intro c hc hcd
    obtain ⟨fm', hfm'⟩ := List.getLast?_eq_some_iff.mp hc
    have hlen : (L.take e).length = e := by
      rw [List.length_take]
      omega
    have hefm : e = fm'.length + 1 := by
      rw [hfm'] at hlen
      simp at hlen
      omega
    have hL : L = (fm' ++ [c]) ++ ("---".data ++ T) := by
      conv_lhs => rw [← List.take_append_drop e L]
      rw [hfm', hT]
    have hdrop : L.drop fm'.length = c :: ("---".data ++ T) := by
      rw [hL, List.append_assoc, List.drop_left]
      rfl
    have hocc := h2 fm'.length (by omega)
    rw [hdrop] at hocc
    subst hcd
    rw [(isPre_iff "---".data ('-' :: ("---".data ++ T))).mpr ⟨'-' :: T, rfl⟩] at hocc
    exact Bool.noConfusion hocc
  · conv_lhs => rw [← List.take_append_drop e L]
    rw [hT, hTval, List.append_assoc]

theorem containsSub_of_prefix_occur (P Q fmv : List Char) (hPQ : P ++ Q = fmv) (k : Nat)
    (h : isPre verKey (P.drop k) = true) : containsSub verKey fmv = true := by
  refine (containsSub_iff _ _).mpr ⟨k, ?_⟩
  by_cases hk : k ≤ P.length
  · rw [← hPQ, List.drop_append_of_le_length hk]
    exact isPre_append _ _ _ h
  · exfalso
    rw [List.drop_eq_nil_of_le (by omega)] at h
    exact Bool.noConfusion h

theorem findVer_fresh (P : List Char) (v : String) (tv : Nat × Nat × Nat)
    (hv : parse_version v = some tv)
    (hnov : ∀ k, isPre verKey (P.drop k) = false) :
    findVer (P ++ '\n' :: ("version: ".data ++ (v.data ++ ['\n']))) = some v.data := by
  obtain ⟨hvne, hvall⟩ := parse_version_chars v tv hv
  have hvall2 : v.data.all isDigDot = true := List.all_eq_true.mpr hvall
  have hshape : P ++ '\n' :: ("version: ".data ++ (v.data ++ ['\n']))
      = (P ++ ['\n']) ++ ("version: ".data ++ v.data ++ ['\n']) := by simp
  rw [hshape]
  rw [findVer_skip]
  · exact findVer_of_matchVer _ _ _ (matchVer_at_repl v.data ['\n'] hvne hvall2
      (by intro c hc; injection hc with hc; rw [← hc]; decide))
  · intro s hsne hsuf
    obtain ⟨s', hs', hsP⟩ := suffix_concat_cases s P '\n' hsuf hsne
    subst hs'
    have hmatch : isPre verKey (s' ++ '\n' :: ("version: ".data ++ v.data ++ ['\n'])) = false := by
      apply isPre_verKey_nl_false
      obtain ⟨T, hT⟩ := hsP
      have hsv : s' = P.drop T.length := by rw [← hT, List.drop_left]
      rw [hsv]
      exact hnov T.length
    have hshape2 : (s' ++ ['\n']) ++ ("version: ".data ++ v.data ++ ['\n'])
        = s' ++ '\n' :: ("version: ".data ++ v.data ++ ['\n']) := by simp
    rw [hshape2]
    exact matchVer_none_of_not_isPre _ hmatch

theorem findVer_subbed (fmv : List Char) (v : String) (tv : Nat × Nat × Nat)
    (hv : parse_version v = some tv)
    (hfms : (firstMatchSplit fmv).isSome = true) :
    findVer (subVersion v fmv) = some v.data := by
  obtain ⟨hvne, hvall⟩ := parse_version_chars v tv hv
  have hvall2 : v.data.all isDigDot = true := List.all_eq_true.mpr hvall
  obtain ⟨pr, hpr⟩ := Option.isSome_iff_exists.mp hfms
  obtain ⟨p, r⟩ := pr
  rw [subVersion_fms_some v fmv p r hpr]
  obtain ⟨t2, g2, hcs2, hmt2⟩ := firstMatchSplit_decomp fmv p r hpr
  have hrhead := (matchVer_some_facts t2 g2 r hmt2).2.2.2.1
  have hX := subVersion_head v r hrhead
  exact findVer_after_first v.data (subVersion v r) hvne hvall2 hX fmv p r hpr

theorem frontmatterOf_mk (fm2 rest : List Char) (hNo3 : noTripleDash fm2)
    (hLast : lastNotDash fm2) :
    frontmatterOf (String.mk ("---".data ++ ((fm2 ++ "---".data) ++ rest))) = some fm2 := by
  have hdef : frontmatterOf (String.mk ("---".data ++ ((fm2 ++ "---".data) ++ rest)))
      = (if isPre "---".data ("---".data ++ ((fm2 ++ "---".data) ++ rest)) then
          match findSub "---".data (("---".data ++ ((fm2 ++ "---".data) ++ rest)).drop 3) with
          | some e => some ((("---".data ++ ((fm2 ++ "---".data) ++ rest)).drop 3).take e)
          | none => none
        else none) := rfl
  rw [hdef, if_pos ((isPre_iff _ _).mpr ⟨_, rfl⟩)]
  have hdrop : ("---".data ++ ((fm2 ++ "---".data) ++ rest)).drop 3 = (fm2 ++ "---".data) ++ rest :=
    List.drop_left "---".data _
  rw [hdrop]
  have hfind : findSub "---".data ((fm2 ++ "---".data) ++ rest) = some fm2.length :=
    findSub_at rest fm2 hNo3 hLast
  rw [hfind]
  show some (((fm2 ++ "---".data) ++ rest).take fm2.length) = some fm2
  rw [List.append_assoc, List.take_left]

theorem extractVersion_of_frontmatter (content : String) (fm g : List Char)
    (hf : frontmatterOf content = some fm) (hg : findVer fm = some g) :
    extractVersion content = some (String.mk g) := by
  have hdef : extractVersion content =
      (if isPre "---".data content.data then
        match findSub "---".data (content.data.drop 3) with
        | some e =>
          match findVer ((content.data.drop 3).take e) with
          | some g2 => some (String.mk g2)
          | none => none
        | none => none
      else none) := rfl
  have hdef2 : frontmatterOf content =
      (if isPre "---".data content.data then
        match findSub "---".data (content.data.drop 3) with
        | some e => some ((content.data.drop 3).take e)
        | none => none
      else none) := rfl
  rw [hdef2] at hf
  rw [hdef]
  by_cases hp : isPre "---".data content.data = true
  · rw [if_pos hp] at hf ⊢
    cases he : findSub "---".data (content.data.drop 3) with
    | none =>
      rw [he] at hf
      exact Option.noConfusion hf
    | some e =>
      rw [he] at hf
      have hf3 : some ((content.data.drop 3).take e) = some fm := hf
      have hf2 : (content.data.drop 3).take e = fm := by
        injection hf3
      show (match findVer ((content.data.drop 3).take e) with
        | some g2 => some (String.mk g2)
        | none => none) = some (String.mk g)
      rw [hf2, hg]
  · rw [if_neg hp] at hf
    exact Option.noConfusion hf

theorem header_good (v : String) (tv : Nat × Nat × Nat) (hv : parse_version v = some tv)
    (cs : List Char) :
    ∃ fm2, frontmatterOf (String.mk (("---\nversion: ".data ++ v.data ++ "\n---\n".data) ++ cs))
        = some fm2
      ∧ findVer fm2 = some v.data := by
  obtain ⟨hvne, hvall⟩ := parse_version_chars v tv hv
  have hdf : ∀ c ∈ ("\nversion: ".data ++ v.data ++ ['\n']), c ≠ '-' := by
    intro c hc
    rcases List.mem_append.mp hc with hc1 | hc2
    · rcases List.mem_append.mp hc1 with hc3 | hc4
      · intro he
        rw [he] at hc3
        revert hc3
        decide
      · exact isDigDot_ne_dash c (hvall c hc4)
    · intro he
      rw [he] at hc2
      revert hc2
      decide
  refine ⟨"\nversion: ".data ++ v.data ++ ['\n'], ?_, ?_⟩
  · have hcontent : ("---\nversion: ".data ++ v.data ++ "\n---\n".data) ++ cs
        = "---".data ++ ((("\nversion: ".data ++ v.data ++ ['\n']) ++ "---".data) ++ ('\n' :: cs)) := by
      rw [show "---\nversion: ".data = "---".data ++ "\nversion: ".data from rfl,
        show "\n---\n".data = ['\n'] ++ ("---".data ++ ['\n']) from rfl]
      simp
    rw [hcontent]
    exact frontmatterOf_mk _ _ (dashfree_noTripleDash _ hdf) (lastNotDash_of_dashfree _ hdf)
  · have hfm : "\nversion: ".data ++ v.data ++ ['\n']
        = [] ++ '\n' :: ("version: ".data ++ (v.data ++ ['\n'])) := by
      rw [show "\nversion: ".data = '\n' :: "version: ".data from rfl]
      simp
    rw [hfm]
    exact findVer_fresh [] v tv hv (fun k => by cases k <;> rfl)

theorem rstrip_tail_shape (P : List Char) (v : String) :
    ((P ++ "\nversion: ".data) ++ v.data) ++ ['\n']
      = P ++ '\n' :: ("version: ".data ++ (v.data ++ ['\n'])) := by
  rw [show "\nversion: ".data = '\n' :: "version: ".data from rfl]
  simp

theorem rstrip_no_verKey (fmv : List Char) (hC : containsSub verKey fmv = false) :
    ∀ k, isPre verKey ((rstrip fmv).drop k) = false := by
  intro k
  cases hp : isPre verKey ((rstrip fmv).drop k) with
  | false => rfl
  | true =>
    exfalso
    obtain ⟨Q, hQ⟩ := rstrip_pref fmv
    have h2 := containsSub_of_prefix_occur (rstrip fmv) Q fmv hQ k hp
    rw [h2] at hC
    exact Bool.noConfusion hC

theorem update_good (content v : String) (tv : Nat × Nat × Nat)
    (hv : parse_version v = some tv) (hpre : rewritePre content) :
    ∃ fm2, frontmatterOf (update_command_file content v) = some fm2
      ∧ findVer fm2 = some v.data := by
  obtain ⟨hvne, hvall⟩ := parse_version_chars v tv hv
  have hdef : update_command_file content v = (if isPre "---".data content.data then
      match findSub "---".data (content.data.drop 3) with
      | some e =>
        String.mk ("---".data ++
          (if containsSub verKey ((content.data.drop 3).take e) then
            subVersion v ((content.data.drop 3).take e)
          else rstrip ((content.data.drop 3).take e) ++ "\nversion: ".data ++ v.data ++ ['\n'])
          ++ "---".data ++ (content.data.drop 3).drop (e + 3))
      | none => String.mk (("---\nversion: ".data ++ v.data ++ "\n---\n".data) ++ content.data)
    else String.mk (("---\nversion: ".data ++ v.data ++ "\n---\n".data) ++ content.data)) := rfl
  rw [hdef]
  by_cases hp : isPre "---".data content.data = true
  · rw [if_pos hp]
    cases he : findSub "---".data (content.data.drop 3) with
    | none =>
      exact header_good v tv hv content.data
    | some e =>
      show ∃ fm2, frontmatterOf (String.mk ("---".data ++
          (if containsSub verKey ((content.data.drop 3).take e) then
            subVersion v ((content.data.drop 3).take e)
          else rstrip ((content.data.drop 3).take e) ++ "\nversion: ".data ++ v.data ++ ['\n'])
          ++ "---".data ++ (content.data.drop 3).drop (e + 3))) = some fm2
        ∧ findVer fm2 = some v.data
      obtain ⟨hNo3, hLast, hdecomp⟩ := frontmatter_safe (content.data.drop 3) e he
      have hfront : frontmatterOf content = some ((content.data.drop 3).take e) := by
        have hdef2 : frontmatterOf content =
            (if isPre "---".data content.data then
              match findSub "---".data (content.data.drop 3) with
              | some e2 => some ((content.data.drop 3).take e2)
              | none => none
            else none) := rfl
        rw [hdef2, if_pos hp, he]
      by_cases hC : containsSub verKey ((content.data.drop 3).take e) = true
      · rw [if_pos hC]
        have hfms := hpre _ hfront hC
        have hfv : findVer (subVersion v ((content.data.drop 3).take e)) = some v.data :=
          findVer_subbed _ v tv hv hfms
        obtain ⟨hsNo3, hsLast⟩ := subVersion_safe v
          (fun c hc => isDigDot_ne_dash c (hvall c hc))
          ((content.data.drop 3).take e).length ((content.data.drop 3).take e) le_rfl hNo3 hLast
        refine ⟨subVersion v ((content.data.drop 3).take e), ?_, hfv⟩
        have hshape : "---".data ++ subVersion v ((content.data.drop 3).take e) ++ "---".data
              ++ (content.data.drop 3).drop (e + 3)
            = "---".data ++ ((subVersion v ((content.data.drop 3).take e) ++ "---".data)
              ++ (content.data.drop 3).drop (e + 3)) := by
          simp [List.append_assoc]
        rw [hshape]
        exact frontmatterOf_mk _ _ hsNo3 hsLast
      · have hC2 : containsSub verKey ((content.data.drop 3).take e) = false :=
          Bool.eq_false_iff.mpr hC
        rw [if_neg hC]
        have hnov := rstrip_no_verKey _ hC2
        have hfv : findVer (((rstrip ((content.data.drop 3).take e) ++ "\nversion: ".data)
            ++ v.data) ++ ['\n']) = some v.data := by
          rw [rstrip_tail_shape]
          exact findVer_fresh _ v tv hv hnov
        have hdfB : ∀ c ∈ ('\n' :: ("version: ".data ++ (v.data ++ ['\n']))), c ≠ '-' := by
          intro c hc
          rcases List.mem_cons.mp hc with he2 | hc2
          · rw [he2]
            decide
          rcases List.mem_append.mp hc2 with hc3 | hc4
          · intro he3
            rw [he3] at hc3
            revert hc3
            decide
          rcases List.mem_append.mp hc4 with hc5 | hc6
          · exact isDigDot_ne_dash c (hvall c hc5)
          · intro he3
            rw [he3] at hc6
            revert hc6
            decide
        have hBno3 : noTripleDash (((rstrip ((content.data.drop 3).take e) ++ "\nversion: ".data)
            ++ v.data) ++ ['\n']) := by
          rw [rstrip_tail_shape]
          exact noTripleDash_append_dashfree _ _
            (noOccur_of_pref _ _ _ (by decide) (rstrip_pref _) hNo3) hdfB
        have hBlast : lastNotDash (((rstrip ((content.data.drop 3).take e) ++ "\nversion: ".data)
            ++ v.data) ++ ['\n']) := by
          intro c hc
          rw [List.getLast?_concat] at hc
          injection hc with hc2
          rw [← hc2]
          decide
        refine ⟨_, ?_, hfv⟩
        have hshape : "---".data ++ (rstrip ((content.data.drop 3).take e) ++ "\nversion: ".data
              ++ v.data ++ ['\n']) ++ "---".data ++ (content.data.drop 3).drop (e + 3)
            = "---".data ++ (((((rstrip ((content.data.drop 3).take e) ++ "\nversion: ".data)
              ++ v.data) ++ ['\n']) ++ "---".data) ++ (content.data.drop 3).drop (e + 3)) := by
          simp [List.append_assoc]
        rw [hshape]
        exact frontmatterOf_mk _ _ hBno3 hBlast
  · rw [if_neg hp]
    exact header_good v tv hv content.data

theorem extract_update (content v : String) (tv : Nat × Nat × Nat)
    (hv : parse_version v = some tv) (hpre : rewritePre content) :
    extractVersion (update_command_file content v) = some v := by
  obtain ⟨fm2, h1, h2⟩ := update_good content v tv hv hpre
  rw [extractVersion_of_frontmatter _ fm2 v.data h1 h2]

theorem update_rewritePre (content v : String) (tv : Nat × Nat × Nat)
    (hv : parse_version v = some tv) (hpre : rewritePre content) :
    rewritePre (update_command_file content v) := by
  obtain ⟨fm2, h1, h2⟩ := update_good content v tv hv hpre
  intro fm hf hc
  rw [h1] at hf
  have hf2 : fm2 = fm := by injection hf
  rw [← hf2]
  exact firstMatchSplit_isSome_of_findVer fm2 v.data h2

/-- C6: the unconditional round-trip claim fails.  The file
`---\nversion: abc\n---\nbody` has a frontmatter block that contains the
substring `version:`, but no occurrence matches `version:\s*[\d.]+`, so the
`re.sub` call of `_update_command_file` replaces nothing, the version marker
`version: 1.0.0` is never embedded, and reading the frontmatter back does not
yield the version just written. -/
theorem c6_counterexample :
    parse_version "1.0.0" = some (1, 0, 0)
      ∧ extractVersion (update_command_file "---\nversion: abc\n---\nbody" "1.0.0")
          ≠ some "1.0.0" := by
  constructor
  · rfl
  · decide

/-- C6 (amended): for every valid semantic version string `v` and every command
file content satisfying the rewrite precondition (whenever the file has a
frontmatter block whose body contains the substring `version:`, at least one
occurrence genuinely matches `version:\s*[\d.]+`), embedding `v` with the
frontmatter rewrite algorithm yields a file whose frontmatter parses back to
exactly `v`, and rewriting the result again with the same algorithm still
parses back to `v` (write-then-read round-trip). -/
theorem c6_write_read_roundtrip (content v : String) (tv : Nat × Nat × Nat)
    (hv : parse_version v = some tv) (hpre : rewritePre content) :
    extractVersion (update_command_file content v) = some v
      ∧ extractVersion (update_command_file (update_command_file content v) v) = some v :=
  ⟨extract_update content v tv hv hpre,
    extract_update _ v tv hv (update_rewritePre content v tv hv hpre)⟩

/-- Concrete instance of the amended C6: writing version `1.0.0` into the
frontmatter-less file `body` and reading it back, once and twice. -/
theorem c6_witness :
    (parse_version "1.0.0" = some (1, 0, 0) ∧ rewritePre "body")
      ∧ extractVersion (update_command_file "body" "1.0.0") = some "1.0.0"
      ∧ extractVersion (update_command_file (update_command_file "body" "1.0.0") "1.0.0")
          = some "1.0.0" := by
  have hpre : rewritePre "body" := by
    intro fm hf
    rw [show frontmatterOf "body" = none from rfl] at hf
    exact Option.noConfusion hf
  exact ⟨⟨rfl, hpre⟩, c6_write_read_roundtrip "body" "1.0.0" (1, 0, 0) rfl hpre⟩
